import Mathlib

/-!
Verification of the caching core of the kaniko repository: the content
fingerprint (`hashFile`), the cache-aware step executor
(`CachingRunCommand.ExecuteCommand` / `CachedExecuteCommand`), the scoped
build-time file manager (`fileCreatorCleaner`), and the cached filesystem
overlay (`imagefs.New` and its `Open`/`Stat`/`Lstat`/`ReadDir` lookups).

Paths and byte strings are modelled as `List Char` and `List Nat`
respectively, so every definition is executable.  Go standard-library
primitives used by the code (`strings.HasPrefix`, `strings.TrimPrefix`,
`filepath.Dir`, `filepath.Join`, `filepath.Match`, `strconv.FormatUint`)
are translated alongside the repository code that calls them.
-/

namespace Kaniko

/-- A file path, modelled as its character list. -/
abbrev Path := List Char

/-- Go `strings.TrimPrefix(s, "/")`: remove one leading slash if present. -/
def trimLeadSlash (p : Path) : Path :=
  match p with
  | c :: r => if c = '/' then r else p
  | [] => p

/-- Go `strings.TrimSuffix(s, "/")`: remove one trailing slash if present. -/
def trimTrailSlash (p : Path) : Path :=
  if p.getLast? = some '/' then p.dropLast else p

/-- Go `filepath.Join(dest, name)` specialized to a cleaned absolute `dest`
and a cleaned relative `name` (the shapes produced by the image walk). -/
def joinP (dest name : Path) : Path :=
  if name = [] then dest
  else if dest = ['/'] then '/' :: name
  else dest ++ '/' :: name

/-- Go `filepath.Dir` specialized to paths without dot segments or repeated
slashes: everything before the final slash, `.` for slash-free paths. -/
def goDirOf (p : Path) : Path :=
  if '/' ∈ p then
    let q := (p.reverse.dropWhile (fun c => !(c == '/'))).reverse
    if q.length ≤ 1 then q else q.dropLast
  else ['.']

/-- `a` is a proper ancestor directory of `n`: `n = a ++ "/" ++ rest`.
This is exactly the `strings.HasPrefix(n, a+"/")` test used by the code. -/
def isAncestorName (a n : Path) : Bool :=
  decide (a ≠ []) && (a ++ ['/']).isPrefixOf n

/-- The list of proper ancestor directories of `n` (prefixes ending just
before a slash).  Used to state walk-order hypotheses decidably. -/
def ancList (n : Path) : List Path :=
  (List.range n.length).filterMap fun i =>
    if 0 < i ∧ n[i]? = some '/' then some (n.take i) else none

theorem mem_ancList {a n : Path} : a ∈ ancList n ↔ isAncestorName a n = true := by
  simp only [ancList, List.mem_filterMap, List.mem_range, isAncestorName,
    Bool.and_eq_true, decide_eq_true_eq, List.isPrefixOf_iff_prefix]
  constructor
  · rintro ⟨i, hi, hcond⟩
    split at hcond
    case isTrue hc =>
      obtain ⟨hpos, hslash⟩ := hc
      injection hcond with hcond
      subst hcond
      refine ⟨?_, ?_⟩
      · intro habs
        have := congrArg List.length habs
        simp only [List.length_take, List.length_nil] at this
        omega
      · have hdrop : n.drop i = '/' :: n.drop (i + 1) := by
          rw [List.drop_eq_getElem_cons hi]
          have hgi : n[i] = '/' := by
            have := List.getElem?_eq_getElem hi
            rw [this] at hslash
            injection hslash
          rw [hgi]
        refine ⟨n.drop (i + 1), ?_⟩
        rw [List.append_assoc, List.singleton_append, ← hdrop,
          List.take_append_drop]
    case isFalse => cases hcond
  · rintro ⟨hne, r, hr⟩
    have hlen : n.length = a.length + 1 + r.length := by
      rw [← hr]; simp; omega
    have hpos : 0 < a.length := List.length_pos.mpr hne
    refine ⟨a.length, by omega, ?_⟩
    have hget : n[a.length]? = some '/' := by
      rw [← hr, List.append_assoc, List.singleton_append,
        List.getElem?_append_right (le_refl a.length)]
      simp
    rw [if_pos ⟨hpos, hget⟩]
    congr 1
    rw [← hr, List.append_assoc, List.take_left]

/-! ## Content fingerprint (`hashFile`, imagefs)

`hashFile` writes, in order: the Go mode string, the uid in base 36, a
comma, the gid in base 36, then the file content for a regular file or the
link target for a symlink, and returns the MD5 digest of that stream.  MD5
is a standard-library primitive outside this repository; it is modelled by
the byte stream itself (i.e. treated as injective), so the theorems are
about the encoding `hashFile` feeds to the hasher. -/

/-- One base-36 digit as its ASCII byte, as produced by
`strconv.FormatUint(x, 36)` (digits `0`-`9` then `a`-`z`). -/
def digitChar36 (d : Nat) : Nat :=
  if d < 10 then 48 + d else 87 + d

/-- Base-36 digits of `n`, least significant first. -/
def toDigitsRev36 : Nat → List Nat
  | 0 => []
  | n + 1 => ((n + 1) % 36) :: toDigitsRev36 ((n + 1) / 36)
decreasing_by exact Nat.div_lt_self (Nat.succ_pos n) (by omega)

/-- Value of a least-significant-first base-36 digit list. -/
def ofDigits36 : List Nat → Nat
  | [] => 0
  | d :: ds => d + 36 * ofDigits36 ds

/-- Go `strconv.FormatUint(n, 36)` as a byte list. -/
def formatUint36 (n : Nat) : List Nat :=
  if n = 0 then [48] else ((toDigitsRev36 n).map digitChar36).reverse

theorem ofDigits36_toDigitsRev36 (n : Nat) : ofDigits36 (toDigitsRev36 n) = n := by
  induction n using Nat.strong_induction_on with
  | _ n ih =>
    match n with
    | 0 => rw [toDigitsRev36]; rfl
    | m + 1 =>
      rw [toDigitsRev36]
      rw [ofDigits36]
      rw [ih ((m + 1) / 36) (Nat.div_lt_self (Nat.succ_pos m) (by omega))]
      omega

theorem toDigitsRev36_lt (n : Nat) : ∀ d ∈ toDigitsRev36 n, d < 36 := by
  induction n using Nat.strong_induction_on with
  | _ n ih =>
    match n with
    | 0 => rw [toDigitsRev36]; intro d hd; cases hd
    | m + 1 =>
      rw [toDigitsRev36]
      intro d hd
      rcases List.mem_cons.mp hd with h | h
      · subst h; exact Nat.mod_lt _ (by omega)
      · exact ih ((m + 1) / 36) (Nat.div_lt_self (Nat.succ_pos m) (by omega)) d h

theorem formatUint36_ne_zero_code {b : Nat} (hb : b ≠ 0) :
    ((toDigitsRev36 b).map digitChar36).reverse ≠ [48] := by
  intro h'
  rcases hd : toDigitsRev36 b with _ | ⟨d, ds⟩
  · have := ofDigits36_toDigitsRev36 b
    rw [hd] at this
    simp [ofDigits36] at this
    exact hb this.symm
  · rw [hd] at h'
    have hlen : ds.length + 1 = 1 := by
      have := congrArg List.length h'
      simpa using this
    have hds : ds = [] := List.length_eq_zero.mp (by omega)
    subst hds
    simp only [List.map_cons, List.map_nil, List.reverse_cons, List.reverse_nil,
      List.nil_append, List.cons.injEq, and_true] at h'
    have hdlt : d < 36 := toDigitsRev36_lt b d (by rw [hd]; simp)
    have hdz : d = 0 := by
      unfold digitChar36 at h'
      split_ifs at h' <;> omega
    subst hdz
    have := ofDigits36_toDigitsRev36 b
    rw [hd] at this
    simp [ofDigits36] at this
    exact hb this.symm

theorem digitChar36_inj {d e : Nat} (hd : d < 36) (he : e < 36)
    (h : digitChar36 d = digitChar36 e) : d = e := by
  unfold digitChar36 at h
  split_ifs at h <;> omega

theorem map_digitChar36_inj : ∀ (l₁ l₂ : List Nat), (∀ d ∈ l₁, d < 36) →
    (∀ d ∈ l₂, d < 36) → l₁.map digitChar36 = l₂.map digitChar36 → l₁ = l₂ := by
  intro l₁
  induction l₁ with
  | nil => intro l₂ _ _ h; cases l₂ with
    | nil => rfl
    | cons b bs => simp at h
  | cons a as ih =>
    intro l₂ h₁ h₂ h
    cases l₂ with
    | nil => simp at h
    | cons b bs =>
      simp only [List.map_cons, List.cons.injEq] at h
      have hab : a = b := digitChar36_inj (h₁ a (by simp)) (h₂ b (by simp)) h.1
      have : as = bs := ih bs (fun d hd => h₁ d (by simp [hd]))
        (fun d hd => h₂ d (by simp [hd])) h.2
      rw [hab, this]

theorem formatUint36_inj {a b : Nat} (h : formatUint36 a = formatUint36 b) :
    a = b := by
  unfold formatUint36 at h
  by_cases ha : a = 0 <;> by_cases hb : b = 0
  · omega
  · rw [if_pos ha, if_neg hb] at h
    exact absurd h.symm (formatUint36_ne_zero_code hb)
  · rw [if_neg ha, if_pos hb] at h
    exact absurd h (formatUint36_ne_zero_code ha)
  · rw [if_neg ha, if_neg hb] at h
    have h' := congrArg List.reverse h
    rw [List.reverse_reverse, List.reverse_reverse] at h'
    have := map_digitChar36_inj _ _ (toDigitsRev36_lt a) (toDigitsRev36_lt b) h'
    calc a = ofDigits36 (toDigitsRev36 a) := (ofDigits36_toDigitsRev36 a).symm
    _ = ofDigits36 (toDigitsRev36 b) := by rw [this]
    _ = b := ofDigits36_toDigitsRev36 b

/-- The file kind distinguished by `hashFile` and the walk callback:
`fi.Mode().IsRegular()`, symlink mode bit, directory bit, or other. -/
inductive FileKind where
  | regular
  | symlink
  | dir
  | other
deriving DecidableEq, Repr

/-- The tar-header fields consumed by the imagefs code: Go mode string
bytes, numeric uid and gid, the file kind derived from the mode, and the
symlink target bytes (`hdr.Linkname`). -/
structure TarHdr where
  modeString : List Nat
  uid : Nat
  gid : Nat
  kind : FileKind
  linkname : List Nat
deriving DecidableEq, Repr

/-- imagefs `hashFile(hdr, r)`: the byte stream fed to the MD5 hasher —
mode string, uid in base 36, a comma (byte 44), gid in base 36, then the
content bytes for a regular file or the link target for a symlink. -/
def hashFile (hdr : TarHdr) (content : List Nat) : List Nat :=
  hdr.modeString ++ formatUint36 hdr.uid ++ [44] ++ formatUint36 hdr.gid ++
    (if hdr.kind = FileKind.regular then content
     else if hdr.kind = FileKind.symlink then hdr.linkname
     else [])

/-- C1: the content fingerprint is a deterministic function of exactly the
mode string, the numeric owner, the numeric group, and the content bytes
(regular file) or link target (symlink): equal inputs give the identical
fingerprint, and changing any one of the four inputs while the others stay
fixed changes the fingerprint (MD5 modelled by its input stream). -/
theorem hashFile_deterministic_and_input_sensitive (h : TarHdr) (c : List Nat) :
    (∀ (h' : TarHdr) (c' : List Nat), h' = h → c' = c →
        hashFile h' c' = hashFile h c)
    ∧ (∀ m, m ≠ h.modeString →
        hashFile { h with modeString := m } c ≠ hashFile h c)
    ∧ (∀ u, u ≠ h.uid → hashFile { h with uid := u } c ≠ hashFile h c)
    ∧ (∀ g, g ≠ h.gid → hashFile { h with gid := g } c ≠ hashFile h c)
    ∧ (h.kind = FileKind.regular → ∀ c', c' ≠ c →
        hashFile h c' ≠ hashFile h c)
    ∧ (h.kind = FileKind.symlink → ∀ l, l ≠ h.linkname →
        hashFile { h with linkname := l } c ≠ hashFile h c) := by
  obtain ⟨ms, u, g, k, ln⟩ := h
  refine ⟨?_, ?_, ?_, ?_, ?_, ?_⟩
  · rintro h' c' rfl rfl; rfl
  · intro m hm heq
    apply hm
    simp only [hashFile] at heq
    exact List.append_cancel_right (List.append_cancel_right
      (List.append_cancel_right (List.append_cancel_right heq)))
  · intro u' hu heq
    apply hu
    simp only [hashFile] at heq
    exact formatUint36_inj (List.append_cancel_left
      (List.append_cancel_right (List.append_cancel_right
        (List.append_cancel_right heq))))
  · intro g' hg heq
    apply hg
    simp only [hashFile] at heq
    exact formatUint36_inj
      (List.append_cancel_left (List.append_cancel_right heq))
  · intro hk c' hc heq
    apply hc
    subst hk
    simp only [hashFile, if_pos] at heq
    exact List.append_cancel_left heq
  · intro hk l hl heq
    apply hl
    subst hk
    simp only [hashFile] at heq
    simp at heq
    exact heq

/-- Witness for C1 at a concrete header: changing only the uid changes
the fingerprint. -/
theorem hashFile_deterministic_and_input_sensitive_witness :
    hashFile ⟨[45], 7, 0, FileKind.regular, []⟩ [9]
      ≠ hashFile ⟨[45], 0, 0, FileKind.regular, []⟩ [9] := by
  have h := hashFile_deterministic_and_input_sensitive
    ⟨[45], 0, 0, FileKind.regular, []⟩ [9]
  exact h.2.2.1 7 (by decide)

/-! ## Cache-aware step executor (`CachingRunCommand`, pkg/commands/run.go)

`ExecuteCommand` (materialize) and `CachedExecuteCommand` (simulated hit)
are modelled over an abstract layer type `L` and an abstract filesystem
state `σ`.  Extraction (`util.GetFSFromLayers`) is a parameter; the
filesystem state is threaded through both calls so that the absence of
writes in the simulated path is observable.  Receiver mutations that are
discarded on an error return are not modelled (only the returned error
is). -/

/-- The candidate image: `img.Layers()` may fail (transport error, the
error value is opaque and modelled as a code). -/
structure CandImage (L : Type) where
  layersResult : Except Nat (List L)

/-- The mutable fields of `CachingRunCommand` that the two execute paths
touch: the retained layer handle (`caching.layer`) and `extractedFiles`. -/
structure CRState (L : Type) where
  layer : Option L
  extractedFiles : List Path

/-- Errors returned by the two execute paths, by source site. -/
inductive ExecErr where
  | imageNil
  | retrievingLayers (code : Nat)
  | wrongLayerCount (got : Nat)
  | extracting (code : Nat)
deriving DecidableEq, Repr

/-- `CachingRunCommand.ExecuteCommand`: requires a non-nil image, a
successful `Layers()` call and exactly one layer, then retains the layer
and extracts it onto the filesystem via `extractLayers`. -/
def executeCommand {L σ : Type} (img : Option (CandImage L))
    (extractLayers : List L → σ → Except Nat (List Path × σ))
    (st : CRState L) (fs : σ) : Except ExecErr (CRState L × σ) :=
  match img with
  | none => Except.error ExecErr.imageNil
  | some im =>
    match im.layersResult with
    | Except.error e => Except.error (ExecErr.retrievingLayers e)
    | Except.ok layers =>
      if layers.length ≠ 1 then
        Except.error (ExecErr.wrongLayerCount layers.length)
      else
        match extractLayers layers fs with
        | Except.error e => Except.error (ExecErr.extracting e)
        | Except.ok (files, fs') =>
          Except.ok ({ st with layer := layers.head?, extractedFiles := files }, fs')

/-- `CachingRunCommand.CachedExecuteCommand`: same validation, then
retains the layer and sets `extractedFiles` to the empty list without
touching the filesystem. -/
def cachedExecuteCommand {L σ : Type} (img : Option (CandImage L))
    (st : CRState L) (fs : σ) : Except ExecErr (CRState L × σ) :=
  match img with
  | none => Except.error ExecErr.imageNil
  | some im =>
    match im.layersResult with
    | Except.error e => Except.error (ExecErr.retrievingLayers e)
    | Except.ok layers =>
      if layers.length ≠ 1 then
        Except.error (ExecErr.wrongLayerCount layers.length)
      else
        Except.ok ({ st with layer := layers.head?, extractedFiles := [] }, fs)

/-- `CachingRunCommand.FilesToSnapshot`: returns `extractedFiles`. -/
def filesToSnapshot {L : Type} (st : CRState L) : List Path :=
  st.extractedFiles

/-- `caching.Layer`: the retained layer handle accessor. -/
def cachingLayer {L : Type} (st : CRState L) : Option L :=
  st.layer

/-- C2: both execute paths fail when the candidate image is nil and when
the layer list has any length other than one; with exactly one layer,
neither path fails for either of those reasons. -/
theorem executeCommand_layer_validation {L σ : Type}
    (extractLayers : List L → σ → Except Nat (List Path × σ))
    (st : CRState L) (fs : σ) :
    (executeCommand none extractLayers st fs = Except.error ExecErr.imageNil
      ∧ cachedExecuteCommand (L := L) none st fs = Except.error ExecErr.imageNil)
    ∧ (∀ (im : CandImage L) (layers : List L),
        im.layersResult = Except.ok layers → layers.length ≠ 1 →
        executeCommand (some im) extractLayers st fs
            = Except.error (ExecErr.wrongLayerCount layers.length)
          ∧ cachedExecuteCommand (some im) st fs
            = Except.error (ExecErr.wrongLayerCount layers.length))
    ∧ (∀ (im : CandImage L) (layers : List L),
        im.layersResult = Except.ok layers → layers.length = 1 →
        executeCommand (some im) extractLayers st fs ≠ Except.error ExecErr.imageNil
          ∧ (∀ n, executeCommand (some im) extractLayers st fs
              ≠ Except.error (ExecErr.wrongLayerCount n))
          ∧ cachedExecuteCommand (some im) st fs ≠ Except.error ExecErr.imageNil
          ∧ (∀ n, cachedExecuteCommand (some im) st fs
              ≠ Except.error (ExecErr.wrongLayerCount n))) := by
  refine ⟨⟨rfl, rfl⟩, ?_, ?_⟩
  · intro im layers hres hlen
    simp [executeCommand, cachedExecuteCommand, hres, hlen]
  · intro im layers hres hlen
    refine ⟨?_, ?_, ?_, ?_⟩
    · simp only [executeCommand, hres, hlen]
      simp only [ne_eq, not_true_eq_false, if_neg, ite_false, not_false_eq_true,
        if_false]
      match extractLayers layers fs with
      | Except.error e => simp
      | Except.ok (files, fs') => simp
    · intro n
      simp only [executeCommand, hres, hlen]
      simp only [ne_eq, not_true_eq_false, if_neg, ite_false, not_false_eq_true,
        if_false]
      match extractLayers layers fs with
      | Except.error e => simp
      | Except.ok (files, fs') => simp
    · simp [cachedExecuteCommand, hres, hlen]
    · intro n
      simp [cachedExecuteCommand, hres, hlen]

/-- Witness for C2 at concrete inputs: a two-layer candidate is rejected
with the layer-count error by both paths. -/
theorem executeCommand_layer_validation_witness :
    executeCommand (some ⟨Except.ok [0, 1]⟩)
        (fun (_ : List Nat) (fs : Unit) => Except.ok ([], fs)) ⟨none, []⟩ ()
        = Except.error (ExecErr.wrongLayerCount 2)
      ∧ cachedExecuteCommand (some ⟨Except.ok [0, 1]⟩) ⟨none, []⟩ ()
        = Except.error (ExecErr.wrongLayerCount 2) :=
  (executeCommand_layer_validation
    (fun (_ : List Nat) (fs : Unit) => Except.ok ([], fs)) ⟨none, []⟩ ()).2.1
    ⟨Except.ok [0, 1]⟩ [0, 1] rfl (by decide)

/-- C3: a successful simulated hit leaves the filesystem state untouched,
reports an empty changed-files list via `FilesToSnapshot`, and retains the
candidate's single layer, observable through the `Layer` accessor. -/
theorem cachedExecuteCommand_frame {L σ : Type} (im : CandImage L) (l : L)
    (st : CRState L) (fs : σ) (hres : im.layersResult = Except.ok [l]) :
    cachedExecuteCommand (some im) st fs
        = Except.ok ({ st with layer := some l, extractedFiles := [] }, fs)
      ∧ filesToSnapshot { st with layer := some l, extractedFiles := ([] : List Path) } = []
      ∧ cachingLayer { st with layer := some l, extractedFiles := ([] : List Path) }
        = some l := by
  refine ⟨?_, rfl, rfl⟩
  simp [cachedExecuteCommand, hres, List.head?]

/-- Witness for C3 at a concrete single-layer candidate. -/
theorem cachedExecuteCommand_frame_witness :
    cachedExecuteCommand (L := Nat) (σ := Nat) (some ⟨Except.ok [5]⟩) ⟨none, []⟩ 7
        = Except.ok (⟨some 5, []⟩, 7)
      ∧ filesToSnapshot (L := Nat) ⟨some 5, []⟩ = []
      ∧ cachingLayer (L := Nat) ⟨some 5, []⟩ = some 5 :=
  cachedExecuteCommand_frame ⟨Except.ok [5]⟩ 5 ⟨none, []⟩ 7 rfl

/-! ## Scoped build-time file manager: cleanup (`fileCreatorCleaner.Clean`)

`Clean` is translated over an abstract filesystem `σ` with a `Remove`
operation (`filesystem.FS.Remove`) that reports either success, the
`ENOTEMPTY` path error, or some other error (opaque code).  The Go code
walks `filesToClean` back-to-front aborting on any error, then
`dirsToClean` back-to-front skipping `ENOTEMPTY` and aborting on any other
error; iterating from the last index down is modelled as a forward walk of
the reversed ledger. -/

/-- Outcome of one `Remove` call, as the Go code discriminates it. -/
inductive RmErr where
  | notEmpty
  | otherErr (code : Nat)
deriving DecidableEq, Repr

/-- The `fileCreatorCleaner` ledger: created files and directories, in
creation order. -/
structure FCCLedger where
  filesToClean : List Path
  dirsToClean : List Path
deriving DecidableEq, Repr

/-- The file pass of `Clean`: remove each path, return the first error. -/
def cleanFilesLoop {σ : Type} (rem : σ → Path → Option RmErr × σ) :
    List Path → σ → σ × Option RmErr
  | [], s => (s, none)
  | p :: ps, s =>
    match rem s p with
    | (none, s') => cleanFilesLoop rem ps s'
    | (some e, s') => (s', some e)

/-- The directory pass of `Clean`: remove each path, skip `ENOTEMPTY`
(third-party content landed in the directory), return any other error. -/
def cleanDirsLoop {σ : Type} (rem : σ → Path → Option RmErr × σ) :
    List Path → σ → σ × Option RmErr
  | [], s => (s, none)
  | p :: ps, s =>
    match rem s p with
    | (none, s') => cleanDirsLoop rem ps s'
    | (some RmErr.notEmpty, s') => cleanDirsLoop rem ps s'
    | (some (RmErr.otherErr m), s') => (s', some (RmErr.otherErr m))

/-- `fileCreatorCleaner.Clean`: files in reverse creation order, then
directories in reverse creation order; a file-pass error aborts before
the directory pass runs. -/
def fccClean {σ : Type} (rem : σ → Path → Option RmErr × σ) (st : FCCLedger)
    (s : σ) : σ × Option RmErr :=
  match cleanFilesLoop rem st.filesToClean.reverse s with
  | (s₁, none) => cleanDirsLoop rem st.dirsToClean.reverse s₁
  | (s₁, some e) => (s₁, some e)

/-- A test-harness filesystem for `Clean`: outcomes are given by an oracle
on the path, and the state logs every `Remove` call in order. -/
def remLog (out : Path → Option RmErr) (s : List Path) (p : Path) :
    Option RmErr × List Path :=
  (out p, s ++ [p])

theorem cleanFilesLoop_ok (out : Path → Option RmErr) :
    ∀ (l : List Path) (s : List Path), (∀ p ∈ l, out p = none) →
    cleanFilesLoop (remLog out) l s = (s ++ l, none) := by
  intro l
  induction l with
  | nil => intro s _; simp [cleanFilesLoop]
  | cons p ps ih =>
    intro s h
    have hp : out p = none := h p (by simp)
    simp only [cleanFilesLoop, remLog, hp]
    rw [ih (s ++ [p]) (fun q hq => h q (by simp [hq]))]
    simp

theorem cleanFilesLoop_abort (out : Path → Option RmErr) :
    ∀ (pre post : List Path) (f : Path) (e : RmErr) (s : List Path),
    (∀ p ∈ pre, out p = none) → out f = some e →
    cleanFilesLoop (remLog out) (pre ++ f :: post) s
      = (s ++ pre ++ [f], some e) := by
  intro pre
  induction pre with
  | nil =>
    intro post f e s _ hf
    simp only [List.nil_append, cleanFilesLoop, remLog, hf]
    simp
  | cons p ps ih =>
    intro post f e s h hf
    have hp : out p = none := h p (by simp)
    simp only [List.cons_append, cleanFilesLoop, remLog, hp, List.append_eq]
    rw [ih post f e (s ++ [p]) (fun q hq => h q (by simp [hq])) hf]
    simp

theorem cleanDirsLoop_ok (out : Path → Option RmErr) :
    ∀ (l : List Path) (s : List Path),
    (∀ p ∈ l, out p = none ∨ out p = some RmErr.notEmpty) →
    cleanDirsLoop (remLog out) l s = (s ++ l, none) := by
  intro l
  induction l with
  | nil => intro s _; simp [cleanDirsLoop]
  | cons p ps ih =>
    intro s h
    have hrec := ih (s ++ [p]) (fun q hq => h q (by simp [hq]))
    rcases h p (by simp) with hp | hp <;>
      · simp only [cleanDirsLoop, remLog, hp]
        rw [hrec]
        simp

theorem cleanDirsLoop_abort (out : Path → Option RmErr) :
    ∀ (pre post : List Path) (d : Path) (m : Nat) (s : List Path),
    (∀ p ∈ pre, out p = none ∨ out p = some RmErr.notEmpty) →
    out d = some (RmErr.otherErr m) →
    cleanDirsLoop (remLog out) (pre ++ d :: post) s
      = (s ++ pre ++ [d], some (RmErr.otherErr m)) := by
  intro pre
  induction pre with
  | nil =>
    intro post d m s _ hd
    simp only [List.nil_append, cleanDirsLoop, remLog, hd]
    simp
  | cons p ps ih =>
    intro post d m s h hd
    have hrec := ih post d m (s ++ [p]) (fun q hq => h q (by simp [hq])) hd
    rcases h p (by simp) with hp | hp <;>
      · simp only [List.cons_append, cleanDirsLoop, remLog, hp, List.append_eq]
        rw [hrec]
        simp

/-- C4: `Clean` removes the ledgered files in reverse creation order and
then the ledgered directories in reverse creation order; an `ENOTEMPTY`
directory removal is skipped without error and cleanup continues; any
other removal error — of a file or of a directory — aborts all remaining
cleanup and is returned.  Stated against a logging filesystem whose
outcomes are an arbitrary oracle. -/
theorem fccClean_order_and_errors (out : Path → Option RmErr)
    (files dirs : List Path) :
    ((∀ p ∈ files, out p = none) →
      (∀ p ∈ dirs, out p = none ∨ out p = some RmErr.notEmpty) →
      fccClean (remLog out) ⟨files, dirs⟩ []
        = (files.reverse ++ dirs.reverse, none))
    ∧ (∀ pre post f e, files.reverse = pre ++ f :: post →
        (∀ p ∈ pre, out p = none) → out f = some e →
        fccClean (remLog out) ⟨files, dirs⟩ [] = (pre ++ [f], some e))
    ∧ (∀ pre post d m, (∀ p ∈ files, out p = none) →
        dirs.reverse = pre ++ d :: post →
        (∀ p ∈ pre, out p = none ∨ out p = some RmErr.notEmpty) →
        out d = some (RmErr.otherErr m) →
        fccClean (remLog out) ⟨files, dirs⟩ []
          = (files.reverse ++ pre ++ [d], some (RmErr.otherErr m))) := by
  refine ⟨?_, ?_, ?_⟩
  · intro hf hd
    simp only [fccClean]
    rw [cleanFilesLoop_ok out files.reverse []
      (fun p hp => hf p (List.mem_reverse.mp hp))]
    dsimp only
    rw [List.nil_append]
    rw [cleanDirsLoop_ok out dirs.reverse files.reverse
      (fun p hp => hd p (List.mem_reverse.mp hp))]
  · intro pre post f e hsplit hpre hf
    simp only [fccClean, hsplit]
    rw [cleanFilesLoop_abort out pre post f e [] hpre hf]
    dsimp only
    simp
  · intro pre post d m hfiles hsplit hpre hd
    simp only [fccClean]
    rw [cleanFilesLoop_ok out files.reverse []
      (fun p hp => hfiles p (List.mem_reverse.mp hp))]
    dsimp only
    rw [List.nil_append]
    simp only [hsplit]
    rw [cleanDirsLoop_abort out pre post d m files.reverse hpre hd]

/-- Witness for C4 at a concrete ledger: two files and two directories,
the shallower directory non-empty; removals happen in reverse creation
order and the non-empty directory is skipped without error. -/
theorem fccClean_order_and_errors_witness :
    fccClean (remLog (fun p => if p = ['a'] then some RmErr.notEmpty else none))
        ⟨[['f'], ['g']], [['a'], ['b']]⟩ []
      = ([['g'], ['f'], ['b'], ['a']], none) :=
  (fccClean_order_and_errors
      (fun p => if p = ['a'] then some RmErr.notEmpty else none)
      [['f'], ['g']] [['a'], ['b']]).1
    (by decide) (by decide)

/-! ## Scoped build-time file manager: creation (`MkdirAndWriteFile`)

`MkdirAndWriteFile` computes `filepath.Dir(path)`, splits it on the path
separator, walks the ancestry from the root down joining one component at
a time, creates (and ledgers) every directory whose `Stat` reports
not-exist, then writes the file.  Note that the Go code passes the
constant `0600` to `WriteFile`, not its `filePerm` parameter.  It is run
here against a concrete in-memory filesystem. -/

/-- Go `strings.Split(s, "/")`. -/
def splitOnSlash : Path -> List Path
  | [] => [[]]
  | c :: r =>
    if c = '/' then [] :: splitOnSlash r
    else
      match splitOnSlash r with
      | [] => [[c]]
      | p :: ps => (c :: p) :: ps

/-- One step of the ancestry walk: `filepath.Join(currentPath, comp)` for
a current absolute path and a slash-free component. -/
def joinStep (cur comp : Path) : Path :=
  if cur = ['/'] then cur ++ comp else cur ++ '/' :: comp

/-- A concrete in-memory filesystem: directories and regular files with
their permission bits.  `Stat` succeeds on the root, on any recorded
directory and on any recorded file. -/
structure MemFS where
  dirs : List (Path × Nat)
  files : List (Path × (List Nat × Nat))
deriving DecidableEq, Repr

/-- `Stat` existence: used by the ancestry walk. -/
def statExists (fs : MemFS) (p : Path) : Bool :=
  p = ['/'] || fs.dirs.any (fun kv => kv.1 = p) || fs.files.any (fun kv => kv.1 = p)

/-- `Mkdir`: fails if the path exists or the parent directory is missing. -/
def memMkdir (fs : MemFS) (p : Path) (perm : Nat) : Except Nat MemFS :=
  if statExists fs p then Except.error 0
  else if statExists fs (goDirOf p) then
    Except.ok { fs with dirs := fs.dirs ++ [(p, perm)] }
  else Except.error 1

/-- `WriteFile`: fails if the parent directory is missing, otherwise
creates or replaces the file with the given permission bits. -/
def memWriteFile (fs : MemFS) (p : Path) (data : List Nat) (perm : Nat) :
    Except Nat MemFS :=
  if statExists fs (goDirOf p) then
    Except.ok { fs with
      files := fs.files.filter (fun kv => !(kv.1 = p : Bool)) ++ [(p, (data, perm))] }
  else Except.error 2

/-- The ancestry loop of `MkdirAndWriteFile`: walk the split components,
skipping empty ones, joining each onto `currentPath`; `Mkdir` and ledger
every level whose `Stat` reports it missing. -/
def mkdirParentsLoop (dirPerm : Nat) :
    List Path -> Path -> FCCLedger -> MemFS -> Except Nat (FCCLedger × MemFS)
  | [], _, st, fs => Except.ok (st, fs)
  | comp :: rest, cur, st, fs =>
    if comp = [] then mkdirParentsLoop dirPerm rest cur st fs
    else
      let cur' := joinStep cur comp
      if !(statExists fs cur') then
        match memMkdir fs cur' dirPerm with
        | Except.error e => Except.error e
        | Except.ok fs' =>
          mkdirParentsLoop dirPerm rest cur'
            { st with dirsToClean := st.dirsToClean ++ [cur'] } fs'
      else mkdirParentsLoop dirPerm rest cur' st fs

/-- `fileCreatorCleaner.MkdirAndWriteFile(path, data, dirPerm, filePerm)`:
create the missing ancestors of `path` with `dirPerm` (ledgering them),
then write `data` to `path` — the Go code passes the literal mode `0600`
to `WriteFile`, leaving the `filePerm` argument unused. -/
def mkdirAndWriteFile (st : FCCLedger) (fs : MemFS) (path : Path)
    (data : List Nat) (dirPerm filePerm : Nat) :
    Except Nat (FCCLedger × MemFS) :=
  let dirPath := goDirOf path
  let parentDirs := splitOnSlash dirPath
  match mkdirParentsLoop dirPerm parentDirs ['/'] st fs with
  | Except.error e => Except.error e
  | Except.ok (st', fs') =>
    match memWriteFile fs' path data 0o600 with
    | Except.error e => Except.error e
    | Except.ok fs'' =>
      Except.ok ({ st' with filesToClean := st'.filesToClean ++ [path] }, fs'')

/-- C5 (failing input): `MkdirAndWriteFile("/s/f", [1,2], 0700, 0644)` on
an empty filesystem creates ledgered directory `/s` with mode `0700` and
writes the file — but with mode `0600`, not the requested `0644`: the
`filePerm` parameter is ignored in favour of the literal `0600`. -/
theorem mkdirAndWriteFile_ignores_filePerm :
    mkdirAndWriteFile ⟨[], []⟩ ⟨[], []⟩ ['/', 's', '/', 'f'] [1, 2] 0o700 0o644
        = Except.ok (⟨[['/', 's', '/', 'f']], [['/', 's']]⟩,
            ⟨[(['/', 's'], 0o700)], [(['/', 's', '/', 'f'], ([1, 2], 0o600))]⟩)
      ∧ 0o600 ≠ 0o644 := by
  constructor
  · rfl
  · decide

/-! ## Go `filepath.Match`

`ReadDir`'s cache fallback and the walk's pattern test call
`filepath.Match`.  The matcher is translated with its documented
semantics: `*` matches any run of non-separator characters, `?` one
non-separator character, `\\c` the literal `c`, `[...]`/`[^...]` a
character class of ranges; a malformed pattern yields `none` (Go's
`ErrBadPattern`), and the callers treat an error as a non-match. -/

/-- Read one (possibly escaped) class character; Go `getEsc`. -/
def getEsc : Path -> Option (Char × Path)
  | [] => none
  | c :: r =>
    if c = '-' ∨ c = ']' then none
    else if c = '\\' then
      match r with
      | [] => none
      | d :: r' => some (d, r')
    else some (c, r)

theorem getEsc_length {p : Path} {c : Char} {r : Path}
    (h : getEsc p = some (c, r)) : r.length < p.length := by
  match p with
  | [] => simp [getEsc] at h
  | a :: q =>
    by_cases h1 : a = '-' ∨ a = ']'
    · simp [getEsc, h1] at h
    · by_cases h2 : a = '\\'
      · cases q with
        | nil => simp [getEsc, h1, h2] at h
        | cons d r' =>
          simp [getEsc, h1, h2] at h
          obtain ⟨-, h3⟩ := h
          subst h3
          simp only [List.length_cons]
          omega
      · simp only [getEsc, h1, h2, if_false, if_neg,
          Option.some.injEq, Prod.mk.injEq] at h
        obtain ⟨-, h3⟩ := h
        subst h3
        simp only [List.length_cons]
        omega

/-- Parse the ranges of a character class up to the closing `]`; the
`first` flag forbids an immediate `]` (a class needs at least one range).
Fuel-driven; callers pass `length + 1`, which always suffices because each
iteration consumes at least one character. -/
def parseRanges : Nat -> Bool -> Path -> Option (List (Char × Char) × Path)
  | 0, _, _ => none
  | fuel + 1, first, p =>
    if first = false ∧ p.head? = some ']' then
      some ([], p.tail)
    else
      match getEsc p with
      | none => none
      | some (lo, p1) =>
        if p1.head? = some '-' then
          match getEsc p1.tail with
          | none => none
          | some (hi, p3) =>
            match parseRanges fuel false p3 with
            | none => none
            | some (rs, rest) => some ((lo, hi) :: rs, rest)
        else
          match parseRanges fuel false p1 with
          | none => none
          | some (rs, rest) => some ((lo, lo) :: rs, rest)

theorem parseRanges_length : ∀ (fuel : Nat) (first : Bool) (p : Path)
    (rs : List (Char × Char)) (rest : Path),
    parseRanges fuel first p = some (rs, rest) -> rest.length ≤ p.length := by
  intro fuel
  induction fuel with
  | zero => intro first p rs rest h; simp [parseRanges] at h
  | succ f ih =>
    intro first p rs rest h
    simp only [parseRanges] at h
    split_ifs at h with hcl
    · injection h with h
      injection h with h1 h2
      subst h2
      cases p <;> simp
    · cases hg : getEsc p with
      | none => simp only [hg] at h; cases h
      | some v =>
        obtain ⟨lo, p1⟩ := v
        simp only [hg] at h
        have hp1 : p1.length < p.length := getEsc_length hg
        split_ifs at h with hdash
        · cases hg2 : getEsc p1.tail with
          | none => simp only [hg2] at h; cases h
          | some w =>
            obtain ⟨hi, p3⟩ := w
            simp only [hg2] at h
            have hp3 : p3.length < p1.tail.length := getEsc_length hg2
            have htail : p1.tail.length ≤ p1.length := by cases p1 <;> simp
            cases hpr : parseRanges f false p3 with
            | none => simp only [hpr] at h; cases h
            | some u =>
              obtain ⟨rs', rest'⟩ := u
              simp only [hpr, Option.some.injEq, Prod.mk.injEq] at h
              obtain ⟨-, h2⟩ := h
              subst h2
              have := ih false p3 rs' rest' hpr
              omega
        · cases hpr : parseRanges f false p1 with
          | none => simp only [hpr] at h; cases h
          | some u =>
            obtain ⟨rs', rest'⟩ := u
            simp only [hpr, Option.some.injEq, Prod.mk.injEq] at h
            obtain ⟨-, h2⟩ := h
            subst h2
            have := ih false p1 rs' rest' hpr
            omega

/-- Parse a whole character class following `[`: optional `^` negation,
then the ranges up to `]`. -/
def matchClass (p : Path) : Option (Bool × List (Char × Char) × Path) :=
  if p.head? = some '^' then
    (parseRanges (p.tail.length + 1) true p.tail).map (fun v => (true, v.1, v.2))
  else
    (parseRanges (p.length + 1) true p).map (fun v => (false, v.1, v.2))

theorem matchClass_length {p : Path} {neg : Bool} {rs : List (Char × Char)}
    {rest : Path} (h : matchClass p = some (neg, rs, rest)) :
    rest.length ≤ p.length := by
  unfold matchClass at h
  split_ifs at h with hc
  · simp only [Option.map_eq_some'] at h
    obtain ⟨⟨v1, v2⟩, hv, hev⟩ := h
    simp only [Prod.mk.injEq] at hev
    obtain ⟨-, -, h3⟩ := hev
    rw [h3] at hv
    have := parseRanges_length _ true p.tail v1 rest hv
    have ht : p.tail.length ≤ p.length := by cases p <;> simp
    omega
  · simp only [Option.map_eq_some'] at h
    obtain ⟨⟨v1, v2⟩, hv, hev⟩ := h
    simp only [Prod.mk.injEq] at hev
    obtain ⟨-, -, h3⟩ := hev
    rw [h3] at hv
    exact parseRanges_length _ true p v1 rest hv

/-- Go `filepath.Match(pattern, name)`, recursively, with structural fuel
(the wrapper `goMatch` always passes sufficient fuel): `some b` is Go's
`(b, nil)`, `none` is `ErrBadPattern`.  `*` matches a run of
non-separator characters, `?` a single non-separator character, a
backslash escapes the next pattern character, `[...]`/`[^...]` matches one
character against ranges; any other character matches itself. -/
def goMatchF : Nat -> Path -> Path -> Option Bool
  | 0, _, _ => none
  | fuel + 1, p, n =>
    match p with
    | [] => some n.isEmpty
    | c :: p' =>
      if c = '*' then
        match goMatchF fuel p' n with
        | none => none
        | some true => some true
        | some false =>
          match n with
          | [] => some false
          | d :: n' => if d = '/' then some false else goMatchF fuel (c :: p') n'
      else if c = '?' then
        match n with
        | [] => some false
        | d :: n' => if d = '/' then some false else goMatchF fuel p' n'
      else if c = '\\' then
        match p' with
        | [] => none
        | e :: p2 =>
          match n with
          | [] => some false
          | d :: n' => if d = e then goMatchF fuel p2 n' else some false
      else if c = '[' then
        match matchClass p' with
        | none => none
        | some (neg, rs, rest) =>
          match n with
          | [] => some false
          | d :: n' =>
            if (rs.any (fun lh => decide (lh.1 ≤ d) && decide (d ≤ lh.2))) != neg
            then goMatchF fuel rest n'
            else some false
      else
        match n with
        | [] => some false
        | d :: n' => if d = c then goMatchF fuel p' n' else some false

/-- Go `filepath.Match(pattern, name)`: every recursive step shortens
`pattern.length + name.length`, so this fuel always suffices. -/
def goMatch (p n : Path) : Option Bool :=
  goMatchF (p.length + n.length + 1) p n

theorem goMatchF_stable : ∀ (f₁ f₂ : Nat) (p n : Path),
    p.length + n.length < f₁ → p.length + n.length < f₂ →
    goMatchF f₁ p n = goMatchF f₂ p n := by
  intro f₁
  induction f₁ with
  | zero => intro f₂ p n h1 h2; omega
  | succ a ih =>
    intro f₂ p n h1 h2
    match f₂ with
    | 0 => omega
    | b + 1 =>
      cases p with
      | nil => rfl
      | cons c p' =>
        simp only [goMatchF]
        split_ifs with hstar hq hbs hbr
        · have hrec : goMatchF a p' n = goMatchF b p' n :=
            ih b p' n (by simp at h1; omega) (by simp at h2; omega)
          rw [hrec]
          cases hv : goMatchF b p' n with
          | none => rfl
          | some t =>
            cases t with
            | true => rfl
            | false =>
              cases n with
              | nil => rfl
              | cons d n' =>
                dsimp only
                by_cases hd : d = '/'
                · rw [if_pos hd, if_pos hd]
                · rw [if_neg hd, if_neg hd]
                  exact ih b (c :: p') n'
                    (by simp at h1 ⊢; omega) (by simp at h2 ⊢; omega)
        · cases n with
          | nil => rfl
          | cons d n' =>
            dsimp only
            by_cases hd : d = '/'
            · rw [if_pos hd, if_pos hd]
            · rw [if_neg hd, if_neg hd]
              exact ih b p' n' (by simp at h1 ⊢; omega) (by simp at h2 ⊢; omega)
        · cases p' with
          | nil => rfl
          | cons e p2 =>
            cases n with
            | nil => rfl
            | cons d n' =>
              dsimp only
              by_cases hd : d = e
              · rw [if_pos hd, if_pos hd]
                exact ih b p2 n' (by simp at h1 ⊢; omega) (by simp at h2 ⊢; omega)
              · rw [if_neg hd, if_neg hd]
        · cases hmc : matchClass p' with
          | none => rfl
          | some v =>
            obtain ⟨neg, rs, rest⟩ := v
            have hrl : rest.length ≤ p'.length := matchClass_length hmc
            cases n with
            | nil => rfl
            | cons d n' =>
              dsimp only
              by_cases hin :
                  (rs.any (fun lh => decide (lh.1 ≤ d) && decide (d ≤ lh.2))) != neg
              · rw [if_pos hin, if_pos hin]
                exact ih b rest n'
                  (by simp at h1 ⊢; omega) (by simp at h2 ⊢; omega)
              · rw [if_neg hin, if_neg hin]
        · cases n with
          | nil => rfl
          | cons d n' =>
            dsimp only
            by_cases hd : d = c
            · rw [if_pos hd, if_pos hd]
              exact ih b p' n' (by simp at h1 ⊢; omega) (by simp at h2 ⊢; omega)
            · rw [if_neg hd, if_neg hd]

/-- One-step unfolding of `goMatchF` at a non-metacharacter pattern head. -/
theorem goMatchF_succ_cons_lit {c : Char} {p : Path} (hstar : ¬(c = '*'))
    (hq : ¬(c = '?')) (hbs : ¬(c = '\\')) (hbr : ¬(c = '[')) (f : Nat) (n : Path) :
    goMatchF (f + 1) (c :: p) n = (match n with
      | [] => some false
      | d :: n' => if d = c then goMatchF f p n' else some false) := by
  simp only [goMatchF]
  rw [if_neg hstar, if_neg hq, if_neg hbs, if_neg hbr]

/-- Unfolding of `goMatch` at a non-metacharacter pattern head. -/
theorem goMatch_cons_lit {c : Char} {p : Path} (hstar : ¬(c = '*'))
    (hq : ¬(c = '?')) (hbs : ¬(c = '\\')) (hbr : ¬(c = '[')) (n : Path) :
    goMatch (c :: p) n = (match n with
      | [] => some false
      | d :: n' => if d = c then goMatch p n' else some false) := by
  show goMatchF ((c :: p).length + n.length + 1) (c :: p) n = _
  rw [show (c :: p).length + n.length + 1 = ((c :: p).length + n.length) + 1 from rfl]
  rw [goMatchF_succ_cons_lit hstar hq hbs hbr]
  cases n with
  | nil => rfl
  | cons d n' =>
    dsimp only
    by_cases hd : d = c
    · rw [if_pos hd, if_pos hd]
      exact goMatchF_stable _ _ p n'
        (by simp only [List.length_cons]; omega) (by omega)
    · rw [if_neg hd, if_neg hd]

/-- `true` iff the path contains none of the four `filepath.Match`
metacharacters; such a path, used as a pattern, matches only itself. -/
def noMeta (p : Path) : Bool :=
  p.all (fun c => !(c = '*' || c = '?' || c = '[' || c = '\\'))

theorem goMatch_noMeta {p : Path} (hp : noMeta p = true) :
    ∀ n : Path, goMatch p n = some true ↔ p = n := by
  induction p with
  | nil =>
    intro n
    have h0 : goMatch [] n = some n.isEmpty := rfl
    rw [h0]
    cases n <;> simp
  | cons c p ih =>
    intro n
    have hp' := hp
    simp only [noMeta, List.all_cons, Bool.and_eq_true] at hp'
    obtain ⟨hc, hrest⟩ := hp'
    simp only [Bool.not_eq_true', Bool.or_eq_false_iff,
      decide_eq_false_iff_not] at hc
    obtain ⟨⟨⟨hstar, hq⟩, hbr⟩, hbs⟩ := hc
    have ih' := ih (by simpa [noMeta] using hrest)
    rw [goMatch_cons_lit hstar hq hbs hbr]
    cases n with
    | nil => simp
    | cons d n' =>
      show (if d = c then goMatch p n' else some false) = some true
        ↔ c :: p = d :: n'
      by_cases hdc : d = c
      · subst hdc
        rw [if_pos rfl, ih' n']
        simp
      · rw [if_neg hdc]
        have hdc' : ¬(c = d) := fun h => hdc h.symm
        simp [hdc']

/-! ## Cached filesystem overlay (imagefs)

`imageFS` keeps `files` (path -> cached entry) and `dirs` (path -> cached
directory with its grouped children).  Go maps are modelled as
association lists with unique keys: assignment (`alSet`) replaces an
existing binding in place or appends a new one, and lookup (`alGet`)
scans for the key.  Go's unspecified map iteration order corresponds to
the list order here. -/

/-- A cached entry: `newCachedFileInfo` (metadata-only ancestor entry) or
`newCachedFileInfoWithMD5Sum` (content entry carrying the fingerprint). -/
inductive CEntry where
  | plain (path : Path) (hdr : TarHdr)
  | withSum (path : Path) (hdr : TarHdr) (sum : List Nat)
deriving DecidableEq, Repr

/-- The tar header an entry carries. -/
def CEntry.chdr : CEntry → TarHdr
  | CEntry.plain _ h => h
  | CEntry.withSum _ h _ => h

/-- The `path` field an entry carries (used by `Read`'s error message). -/
def CEntry.cpath : CEntry → Path
  | CEntry.plain p _ => p
  | CEntry.withSum p _ _ => p

/-- `IsDir()` of the entry's file info. -/
def isDirE (e : CEntry) : Bool :=
  e.chdr.kind = FileKind.dir

/-- `true` exactly for content entries (with a fingerprint). -/
def isContentE : CEntry → Bool
  | CEntry.withSum _ _ _ => true
  | CEntry.plain _ _ => false

/-- Go map read `m[k]` (`nil` when absent): first binding with the key. -/
def alGet : List (Path × CEntry) → Path → Option CEntry
  | [], _ => none
  | kv :: m, k => if kv.1 = k then some kv.2 else alGet m k

/-- Go map write `m[k] = v`: bind `k` to `v`, dropping any previous
binding.  Go map iteration order is unspecified, so the binding is kept in
front; keys stay unique. -/
def alSet (m : List (Path × CEntry)) (k : Path) (v : CEntry) :
    List (Path × CEntry) :=
  (k, v) :: m.filter (fun kv => decide (kv.1 ≠ k))

theorem alGet_alSet_self (m : List (Path × CEntry)) (k : Path) (v : CEntry) :
    alGet (alSet m k v) k = some v := by
  simp [alGet, alSet]

theorem alGet_filter_ne (m : List (Path × CEntry)) (k k' : Path) (h : k' ≠ k) :
    alGet (m.filter (fun kv => decide (kv.1 ≠ k))) k' = alGet m k' := by
  induction m with
  | nil => rfl
  | cons hd tl ih =>
    by_cases hk : hd.1 = k
    · rw [List.filter_cons_of_neg (by simp [hk])]
      have h2 : hd.1 ≠ k' := by rw [hk]; exact fun he => h he.symm
      rw [show alGet (hd :: tl) k' = alGet tl k' from by simp [alGet, h2]]
      exact ih
    · rw [List.filter_cons_of_pos (by simp [hk])]
      by_cases hbe : hd.1 = k'
      · simp [alGet, hbe]
      · rw [show alGet (hd :: List.filter (fun kv => decide (kv.1 ≠ k)) tl) k'
            = alGet (List.filter (fun kv => decide (kv.1 ≠ k)) tl) k' from by
          simp [alGet, hbe]]
        rw [show alGet (hd :: tl) k' = alGet tl k' from by simp [alGet, hbe]]
        exact ih

theorem alGet_alSet_ne (m : List (Path × CEntry)) (k k' : Path) (v : CEntry)
    (h : k' ≠ k) : alGet (alSet m k v) k' = alGet m k' := by
  unfold alSet
  have hne : ¬(k = k') := fun he => h he.symm
  rw [show alGet ((k, v) :: m.filter (fun kv => decide (kv.1 ≠ k))) k'
      = alGet (m.filter (fun kv => decide (kv.1 ≠ k))) k' from by
    simp [alGet, hne]]
  exact alGet_filter_ne m k k' h

theorem alGet_isSome_alSet (m : List (Path × CEntry)) (k k' : Path) (v : CEntry)
    (h : (alGet m k').isSome) : (alGet (alSet m k v) k').isSome := by
  by_cases hk : k' = k
  · subst hk
    rw [alGet_alSet_self]
    rfl
  · rw [alGet_alSet_ne m k k' v hk]
    exact h

theorem alGet_mem {m : List (Path × CEntry)} {k : Path} {v : CEntry} :
    alGet m k = some v → (k, v) ∈ m := by
  induction m with
  | nil => intro h; cases h
  | cons hd tl ih =>
    intro h
    by_cases hk : hd.1 = k
    · rw [show alGet (hd :: tl) k = some hd.2 from by simp [alGet, hk]] at h
      injection h with h
      have : hd = (k, v) := by
        obtain ⟨h1, h2⟩ := hd
        simp only at hk h
        rw [hk, h]
      rw [← this]
      exact List.mem_cons_self hd tl
    · rw [show alGet (hd :: tl) k = alGet tl k from by simp [alGet, hk]] at h
      exact List.mem_cons_of_mem _ (ih h)

theorem alGet_of_mem_nodup {m : List (Path × CEntry)} {k : Path} {v : CEntry}
    (hnd : (m.map Prod.fst).Nodup) (hmem : (k, v) ∈ m) :
    alGet m k = some v := by
  induction m with
  | nil => cases hmem
  | cons hd tl ih =>
    simp only [List.map_cons, List.nodup_cons] at hnd
    obtain ⟨hhd, htl⟩ := hnd
    rcases List.mem_cons.mp hmem with h | h
    · subst h
      simp [alGet]
    · have hk : hd.1 ≠ k := by
        intro he
        apply hhd
        rw [he]
        exact List.mem_map.mpr ⟨(k, v), h, rfl⟩
      rw [show alGet (hd :: tl) k = alGet tl k from by simp [alGet, hk]]
      exact ih htl h

/-- One tar entry presented to the walk callback of `imagefs.New`:
the cleaned name passed by `util.GetFSFromLayers`, the header, and the
content bytes behind the entry's reader. -/
structure WalkEntry where
  name : Path
  hdr : TarHdr
  content : List Nat
deriving DecidableEq, Repr

/-- The state accumulated by the walk callback of `imagefs.New`: the
`files` map under construction and the open cached-directory list
`dirsToCache`. -/
structure WalkSt where
  files : List (Path × CEntry)
  dirsToCache : List Path
deriving DecidableEq, Repr

/-- The `cacheFile` closure: record the entry's directory as open for
contagious caching when it is one, hash the entry, and store a content
entry under `filepath.Join(dest, cleanedName)`. -/
def cacheFileFn (dest cleanedName : Path) (e : WalkEntry) (st : WalkSt) :
    WalkSt :=
  let path := joinP dest cleanedName
  { files := alSet st.files path
      (CEntry.withSum path e.hdr (hashFile e.hdr e.content)),
    dirsToCache :=
      if e.hdr.kind = FileKind.dir then st.dirsToCache ++ [cleanedName]
      else st.dirsToCache }

/-- The `filesToCache` loop of the walk callback: each pattern is trimmed
of a leading and a trailing slash; a `filepath.Match` hit caches the
entry; otherwise, when the entry is a path prefix of the pattern (or the
root entry), a metadata-only ancestor entry is registered unless the path
is already present — note the ancestor entry is built with `dest` as its
`path` field, as in the source. -/
def patLoop (dest cleanedName : Path) (e : WalkEntry) :
    List Path → WalkSt → WalkSt
  | [], st => st
  | f :: fs, st =>
    let f' := trimTrailSlash (trimLeadSlash f)
    if goMatch f' cleanedName = some true then
      cacheFileFn dest cleanedName e st
    else
      let path := joinP dest cleanedName
      let st' :=
        if cleanedName = [] ∨ (cleanedName ++ ['/']).isPrefixOf f' then
          match alGet st.files path with
          | none => { st with files := alSet st.files path (CEntry.plain dest e.hdr) }
          | some _ => st
        else st
      patLoop dest cleanedName e fs st'

/-- One step of the walk callback: trim the leading slash from the name;
an entry under an open cached directory is cached unconditionally,
otherwise the pattern loop decides. -/
def walkStep (pats : List Path) (dest : Path) (st : WalkSt) (e : WalkEntry) :
    WalkSt :=
  let cleanedName := trimLeadSlash e.name
  if st.dirsToCache.any (fun dir => (dir ++ ['/']).isPrefixOf cleanedName) then
    cacheFileFn dest cleanedName e st
  else
    patLoop dest cleanedName e pats st

/-- The whole layer walk of `imagefs.New` over a fresh root: the entries
are streamed once, in archive order. -/
def mountWalk (pats : List Path) (dest : Path) (es : List WalkEntry) : WalkSt :=
  es.foldl (walkStep pats dest) ⟨[], []⟩

/-- A cached directory: its own file info and its grouped children. -/
structure CachedDir where
  info : CEntry
  entry : List CEntry
deriving DecidableEq, Repr

/-- The directory grouping performed once after the walk: every directory
entry of `files` is paired with the entries whose `filepath.Dir` equals
its path.  Go iterates both maps in unspecified order; the model uses
list order. -/
def buildDirs (files : List (Path × CEntry)) : List (Path × CachedDir) :=
  files.filterMap (fun kv =>
    if isDirE kv.2 then
      some (kv.1, ⟨kv.2,
        (files.filter (fun kv2 => decide (goDirOf kv2.1 = kv.1))).map
          (fun kv2 => kv2.2)⟩)
    else none)

/-- Lookup errors of the overlay. -/
inductive FsErr where
  | notExist
deriving DecidableEq, Repr

/-- Result of `Open`/`Stat`/`Lstat`: the base filesystem's own result, or
a cached entry served from the overlay. -/
inductive LookupRes (α : Type) where
  | base (x : α)
  | cached (e : CEntry)

/-- Result of `ReadDir`: the base filesystem's own listing, or the cached
grouped children. -/
inductive RDRes (α : Type) where
  | base (x : α)
  | cached (l : List CEntry)

/-- `imageFS.Open`: the base filesystem first; on its failure the cached
`files` map; otherwise `fs.ErrNotExist`. -/
def ifsOpen {α : Type} (base : Path → Option α)
    (files : List (Path × CEntry)) (name : Path) : Except FsErr (LookupRes α) :=
  match base name with
  | some f => Except.ok (LookupRes.base f)
  | none =>
    match alGet files name with
    | some e => Except.ok (LookupRes.cached e)
    | none => Except.error FsErr.notExist

/-- `imageFS.Lstat`: same fallback structure as `Open`. -/
def ifsLstat {α : Type} (base : Path → Option α)
    (files : List (Path × CEntry)) (name : Path) : Except FsErr (LookupRes α) :=
  match base name with
  | some fi => Except.ok (LookupRes.base fi)
  | none =>
    match alGet files name with
    | some e => Except.ok (LookupRes.cached e)
    | none => Except.error FsErr.notExist

/-- `imageFS.Stat`: same fallback structure as `Open`. -/
def ifsStat {α : Type} (base : Path → Option α)
    (files : List (Path × CEntry)) (name : Path) : Except FsErr (LookupRes α) :=
  match base name with
  | some fi => Except.ok (LookupRes.base fi)
  | none =>
    match alGet files name with
    | some e => Except.ok (LookupRes.cached e)
    | none => Except.error FsErr.notExist

/-- The cached-directory scan of `imageFS.ReadDir`: the first cached
directory whose path the requested name matches as a `filepath.Match`
pattern (an error from `Match` counts as a non-match). -/
def findMatchDir (dirs : List (Path × CachedDir)) (name : Path) :
    Option (Path × CachedDir) :=
  dirs.find? (fun kv => goMatch name kv.1 == some true)

/-- `imageFS.ReadDir`: the base filesystem first; on its failure the
cached directories are scanned with `filepath.Match(name, dir)`;
otherwise `fs.ErrNotExist`. -/
def ifsReadDir {α : Type} (base : Path → Option α)
    (dirs : List (Path × CachedDir)) (name : Path) : Except FsErr (RDRes α) :=
  match base name with
  | some de => Except.ok (RDRes.base de)
  | none =>
    match findMatchDir dirs name with
    | some kv => Except.ok (RDRes.cached kv.2.entry)
    | none => Except.error FsErr.notExist

/-- `cachedFileInfo.Read`: always `(0, error)`; the error carries the
entry's `path` field (the model keeps just that payload). -/
def cfRead (e : CEntry) : Nat × Option Path :=
  (0, some e.cpath)

/-- C6: every lookup operation (`Open`, `Stat`, `Lstat`, `ReadDir`)
returns the base filesystem's result whenever the base succeeds — cached
entries never shadow the base — and fails with `NotExist` when the base
fails and no cached entry (for `Open`/`Stat`/`Lstat`) or cached directory
(for `ReadDir`) matches the name. -/
theorem imagefs_base_precedence {α β γ δ : Type}
    (baseOpen : Path → Option α) (baseStat : Path → Option β)
    (baseLstat : Path → Option γ) (baseReadDir : Path → Option δ)
    (files : List (Path × CEntry)) (dirs : List (Path × CachedDir))
    (name : Path) :
    (∀ f, baseOpen name = some f →
      ifsOpen baseOpen files name = Except.ok (LookupRes.base f))
    ∧ (∀ fi, baseStat name = some fi →
      ifsStat baseStat files name = Except.ok (LookupRes.base fi))
    ∧ (∀ fi, baseLstat name = some fi →
      ifsLstat baseLstat files name = Except.ok (LookupRes.base fi))
    ∧ (∀ de, baseReadDir name = some de →
      ifsReadDir baseReadDir dirs name = Except.ok (RDRes.base de))
    ∧ (baseOpen name = none → alGet files name = none →
      ifsOpen baseOpen files name = Except.error FsErr.notExist)
    ∧ (baseStat name = none → alGet files name = none →
      ifsStat baseStat files name = Except.error FsErr.notExist)
    ∧ (baseLstat name = none → alGet files name = none →
      ifsLstat baseLstat files name = Except.error FsErr.notExist)
    ∧ (baseReadDir name = none → findMatchDir dirs name = none →
      ifsReadDir baseReadDir dirs name = Except.error FsErr.notExist) := by
  refine ⟨?_, ?_, ?_, ?_, ?_, ?_, ?_, ?_⟩
  · intro f h; simp [ifsOpen, h]
  · intro fi h; simp [ifsStat, h]
  · intro fi h; simp [ifsLstat, h]
  · intro de h; simp [ifsReadDir, h]
  · intro h1 h2; simp [ifsOpen, h1, h2]
  · intro h1 h2; simp [ifsStat, h1, h2]
  · intro h1 h2; simp [ifsLstat, h1, h2]
  · intro h1 h2; simp [ifsReadDir, h1, h2]

/-- Witness for C6: a base hit wins over a cached entry at the same path;
a miss on both sides is `NotExist`. -/
theorem imagefs_base_precedence_witness :
    ifsOpen (fun _ => some 7)
        [(['/', 'a'], CEntry.plain ['/', 'a'] ⟨[45], 0, 0, FileKind.dir, []⟩)]
        ['/', 'a'] = Except.ok (LookupRes.base 7)
    ∧ ifsReadDir (fun _ => (none : Option Nat)) [] ['/', 'a']
      = Except.error FsErr.notExist := by
  constructor
  · exact (imagefs_base_precedence (fun _ => some 7) (fun _ => (none : Option Nat))
      (fun _ => (none : Option Nat)) (fun _ => (none : Option Nat))
      [(['/', 'a'], CEntry.plain ['/', 'a'] ⟨[45], 0, 0, FileKind.dir, []⟩)] []
      ['/', 'a']).1 7 rfl
  · exact (imagefs_base_precedence (fun _ => (none : Option Nat))
      (fun _ => (none : Option Nat)) (fun _ => (none : Option Nat))
      (fun _ => (none : Option Nat)) [] [] ['/', 'a']).2.2.2.2.2.2.2 rfl rfl

/-- C9: a cached entry served by the overlay fails every `Read` with an
error and zero bytes read — the overlay never returns tar payload bytes
for a cached entry. -/
theorem cached_read_unsupported {α : Type} (base : Path → Option α)
    (files : List (Path × CEntry)) (name : Path) (e : CEntry)
    (h : ifsOpen base files name = Except.ok (LookupRes.cached e)) :
    (cfRead e).1 = 0 ∧ (cfRead e).2.isSome := ⟨rfl, rfl⟩

/-- Witness for C9 at a concrete overlay-served content entry. -/
theorem cached_read_unsupported_witness :
    (cfRead (CEntry.withSum ['/', 'a'] ⟨[45], 0, 0, FileKind.regular, []⟩ [9])).1 = 0
    ∧ (cfRead (CEntry.withSum ['/', 'a'] ⟨[45], 0, 0, FileKind.regular, []⟩ [9])).2.isSome :=
  cached_read_unsupported (fun _ => (none : Option Nat))
    [(['/', 'a'], CEntry.withSum ['/', 'a'] ⟨[45], 0, 0, FileKind.regular, []⟩ [9])]
    ['/', 'a'] _ rfl

/-- C10: when the base filesystem fails a `ReadDir`, the requested name is
used as a `filepath.Match` pattern against the cached directory paths: the
request `/*` (which is not the literal path of any cached directory)
returns the children of the cached directory `/a`; and a
metacharacter-free name can only match the cached directory with exactly
that path. -/
theorem readDir_name_is_glob_pattern :
    (ifsReadDir (fun _ => (none : Option Nat))
        [(['/', 'a'],
          ⟨CEntry.withSum ['/', 'a'] ⟨[100], 0, 0, FileKind.dir, []⟩ [],
           [CEntry.withSum ['/', 'a', '/', 'b'] ⟨[45], 0, 0, FileKind.regular, []⟩ [9]]⟩)]
        ['/', '*']
      = Except.ok (RDRes.cached
          [CEntry.withSum ['/', 'a', '/', 'b'] ⟨[45], 0, 0, FileKind.regular, []⟩ [9]]))
    ∧ (['/', '*'] : Path) ≠ ['/', 'a']
    ∧ (∀ (dirs : List (Path × CachedDir)) (name k : Path) (d : CachedDir),
        noMeta name = true → findMatchDir dirs name = some (k, d) → k = name) := by
  refine ⟨rfl, by decide, ?_⟩
  intro dirs name k d hmeta hfind
  have hp := List.find?_some hfind
  simp only [beq_iff_eq] at hp
  exact ((goMatch_noMeta hmeta k).mp hp).symm

/-- Witness for C10's metacharacter-free clause: with two cached
directories, the literal request finds exactly its own path. -/
theorem readDir_name_is_glob_pattern_witness :
    (['/', 'a'] : Path) = ['/', 'a'] :=
  readDir_name_is_glob_pattern.2.2
    [(['/', 'b'], ⟨CEntry.withSum ['/', 'b'] ⟨[100], 0, 0, FileKind.dir, []⟩ [], []⟩),
     (['/', 'a'], ⟨CEntry.withSum ['/', 'a'] ⟨[100], 0, 0, FileKind.dir, []⟩ [], []⟩)]
    ['/', 'a'] ['/', 'a']
    ⟨CEntry.withSum ['/', 'a'] ⟨[100], 0, 0, FileKind.dir, []⟩ [], []⟩
    (by decide) rfl

/-- Membership in the directory grouping: exactly the directory entries of
`files`, each paired with the entries whose `filepath.Dir` is its path. -/
theorem mem_buildDirs {files : List (Path × CEntry)} {kv : Path × CachedDir} :
    kv ∈ buildDirs files ↔ ∃ ent, (kv.1, ent) ∈ files ∧ isDirE ent = true ∧
      kv.2 = ⟨ent, (files.filter (fun kv2 => decide (goDirOf kv2.1 = kv.1))).map
        (fun kv2 => kv2.2)⟩ := by
  unfold buildDirs
  rw [List.mem_filterMap]
  constructor
  · rintro ⟨a, ha, hcond⟩
    by_cases hd : isDirE a.2 = true
    · rw [if_pos hd] at hcond
      injection hcond with hcond
      refine ⟨a.2, ?_, hd, ?_⟩
      · rw [← hcond]
        exact ha
      · rw [← hcond]
    · rw [if_neg hd] at hcond
      cases hcond
  · rintro ⟨ent, hmem, hdir, hkv⟩
    refine ⟨(kv.1, ent), hmem, ?_⟩
    simp only [if_pos hdir]
    rw [← hkv]

/-- C7 counterexample: a cached directory whose literal path contains a
glob metacharacter.  The overlay caches directory `[a]`, its base lookup
fails, yet `ReadDir("[a]")` does not return its grouped children — it
fails with `NotExist`, because the request is interpreted as a pattern
and the class `[a]` does not match the three-character name `[a]`. -/
theorem readDir_cached_dir_metachar_counterexample :
    isDirE (CEntry.withSum ['[', 'a', ']'] ⟨[100], 0, 0, FileKind.dir, []⟩ []) = true
    ∧ alGet [(['[', 'a', ']'],
        CEntry.withSum ['[', 'a', ']'] ⟨[100], 0, 0, FileKind.dir, []⟩ [])]
        ['[', 'a', ']']
      = some (CEntry.withSum ['[', 'a', ']'] ⟨[100], 0, 0, FileKind.dir, []⟩ [])
    ∧ buildDirs [(['[', 'a', ']'],
        CEntry.withSum ['[', 'a', ']'] ⟨[100], 0, 0, FileKind.dir, []⟩ [])]
      = [(['[', 'a', ']'],
          ⟨CEntry.withSum ['[', 'a', ']'] ⟨[100], 0, 0, FileKind.dir, []⟩ [], []⟩)]
    ∧ ifsReadDir (fun _ => (none : Option Nat))
        (buildDirs [(['[', 'a', ']'],
          CEntry.withSum ['[', 'a', ']'] ⟨[100], 0, 0, FileKind.dir, []⟩ [])])
        ['[', 'a', ']']
      = Except.error FsErr.notExist :=
  ⟨rfl, rfl, rfl, rfl⟩

/-- Core of C7 (amended): on base failure, `ReadDir` on the literal,
metacharacter-free path of a cached directory returns exactly the set of
cached entries whose parent path is that directory. -/
theorem readDir_grouped_core {α : Type} (base : Path → Option α)
    (files : List (Path × CEntry)) (name : Path) (e : CEntry)
    (hnd : (files.map Prod.fst).Nodup) (hbase : base name = none)
    (hmeta : noMeta name = true) (hmem : alGet files name = some e)
    (hdir : isDirE e = true) :
    ∃ l, ifsReadDir base (buildDirs files) name = Except.ok (RDRes.cached l)
      ∧ ∀ x, x ∈ l ↔ ∃ k, (k, x) ∈ files ∧ goDirOf k = name := by
  have hmemf : (name, e) ∈ files := alGet_mem hmem
  have hrefl : goMatch name name = some true := (goMatch_noMeta hmeta name).mpr rfl
  have hdirmem : (name, (⟨e, (files.filter
      (fun kv2 => decide (goDirOf kv2.1 = name))).map (fun kv2 => kv2.2)⟩ : CachedDir))
      ∈ buildDirs files :=
    mem_buildDirs.mpr ⟨e, hmemf, hdir, rfl⟩
  have hsome : (findMatchDir (buildDirs files) name).isSome := by
    unfold findMatchDir
    rw [List.find?_isSome]
    exact ⟨_, hdirmem, by simp [hrefl]⟩
  obtain ⟨kv, hkv⟩ := Option.isSome_iff_exists.mp hsome
  have hkey : kv.1 = name := by
    have hp := List.find?_some hkv
    simp only [beq_iff_eq] at hp
    exact ((goMatch_noMeta hmeta kv.1).mp hp).symm
  have hkv_mem : kv ∈ buildDirs files := List.mem_of_find?_eq_some hkv
  obtain ⟨ent, hentmem, hentdir, hkv2⟩ := mem_buildDirs.mp hkv_mem
  rw [hkey] at hentmem hkv2
  have hent : ent = e := by
    have h2 := alGet_of_mem_nodup hnd hentmem
    rw [hmem] at h2
    injection h2 with h2
    exact h2.symm
  refine ⟨kv.2.entry, ?_, ?_⟩
  · unfold ifsReadDir
    rw [hbase, hkv]
  · intro x
    rw [hkv2]
    simp only [List.mem_map, List.mem_filter, decide_eq_true_eq]
    constructor
    · rintro ⟨kv2, ⟨hm, hd⟩, hx⟩
      refine ⟨kv2.1, ?_, hd⟩
      rw [← hx]
      exact hm
    · rintro ⟨k, hm, hd⟩
      exact ⟨(k, x), ⟨hm, hd⟩, rfl⟩

/-- C7 (amended): for every cached directory path free of glob
metacharacters whose base lookup fails, `ReadDir` returns exactly the set
of cached entries whose parent path equals that directory — as grouped at
mount time — and the set is unchanged under any permutation of the cached
entries (insertion order during the walk does not matter). -/
theorem readDir_grouped_children {α : Type} (base : Path → Option α)
    (files : List (Path × CEntry)) (name : Path) (e : CEntry)
    (hnd : (files.map Prod.fst).Nodup) (hbase : base name = none)
    (hmeta : noMeta name = true) (hmem : alGet files name = some e)
    (hdir : isDirE e = true) :
    ∃ l, ifsReadDir base (buildDirs files) name = Except.ok (RDRes.cached l)
      ∧ (∀ x, x ∈ l ↔ ∃ k, (k, x) ∈ files ∧ goDirOf k = name)
      ∧ ∀ files₂, files₂.Perm files →
          ∃ l₂, ifsReadDir base (buildDirs files₂) name
              = Except.ok (RDRes.cached l₂)
            ∧ ∀ x, (x ∈ l₂ ↔ x ∈ l) := by
  obtain ⟨l, hl, hchar⟩ :=
    readDir_grouped_core base files name e hnd hbase hmeta hmem hdir
  refine ⟨l, hl, hchar, ?_⟩
  intro files₂ hperm
  have hnd₂ : (files₂.map Prod.fst).Nodup :=
    ((hperm.map Prod.fst).nodup_iff).mpr hnd
  have hmem₂ : alGet files₂ name = some e :=
    alGet_of_mem_nodup hnd₂ (hperm.mem_iff.mpr (alGet_mem hmem))
  obtain ⟨l₂, hl₂, hchar₂⟩ :=
    readDir_grouped_core base files₂ name e hnd₂ hbase hmeta hmem₂ hdir
  refine ⟨l₂, hl₂, ?_⟩
  intro x
  rw [hchar₂ x, hchar x]
  constructor
  · rintro ⟨k, hm, hd⟩
    exact ⟨k, hperm.mem_iff.mp hm, hd⟩
  · rintro ⟨k, hm, hd⟩
    exact ⟨k, hperm.mem_iff.mpr hm, hd⟩

/-- Witness for C7 (amended) at a concrete two-entry overlay. -/
theorem readDir_grouped_children_witness :
    ∃ l, ifsReadDir (fun _ => (none : Option Nat))
        (buildDirs [(['/', 'a'],
            CEntry.withSum ['/', 'a'] ⟨[100], 0, 0, FileKind.dir, []⟩ []),
          (['/', 'a', '/', 'b'],
            CEntry.withSum ['/', 'a', '/', 'b'] ⟨[45], 0, 0, FileKind.regular, []⟩ [9])])
        ['/', 'a']
        = Except.ok (RDRes.cached l)
      ∧ (∀ x, x ∈ l ↔ ∃ k, (k, x) ∈ [(['/', 'a'],
            CEntry.withSum ['/', 'a'] ⟨[100], 0, 0, FileKind.dir, []⟩ []),
          (['/', 'a', '/', 'b'],
            CEntry.withSum ['/', 'a', '/', 'b'] ⟨[45], 0, 0, FileKind.regular, []⟩ [9])]
          ∧ goDirOf k = ['/', 'a'])
      ∧ ∀ files₂, files₂.Perm [(['/', 'a'],
            CEntry.withSum ['/', 'a'] ⟨[100], 0, 0, FileKind.dir, []⟩ []),
          (['/', 'a', '/', 'b'],
            CEntry.withSum ['/', 'a', '/', 'b'] ⟨[45], 0, 0, FileKind.regular, []⟩ [9])] →
          ∃ l₂, ifsReadDir (fun _ => (none : Option Nat)) (buildDirs files₂) ['/', 'a']
              = Except.ok (RDRes.cached l₂)
            ∧ ∀ x, (x ∈ l₂ ↔ x ∈ l) :=
  readDir_grouped_children (fun _ => (none : Option Nat)) _ ['/', 'a'] _
    (by decide) rfl (by decide) rfl rfl

/-! ## C8 support: walk-state observations and path lemmas -/

/-- `true` when the map holds a content entry (with fingerprint) at `k`. -/
def contentAtF (files : List (Path × CEntry)) (k : Path) : Bool :=
  match alGet files k with
  | some (CEntry.withSum _ _ _) => true
  | _ => false

/-- Walk order hypothesis for C8 (amended): every entry's ancestor
directories appear in the walk before it, as directory entries. -/
def ancClosedB : List WalkEntry → List WalkEntry → Bool
  | _, [] => true
  | seen, e :: rest =>
    ((ancList e.name).all (fun a =>
        seen.any (fun d => decide (d.name = a) && decide (d.hdr.kind = FileKind.dir))))
      && ancClosedB (seen ++ [e]) rest

theorem joinP_inj {dest n n' : Path} (h : joinP dest n = joinP dest n') :
    n = n' := by
  unfold joinP at h
  by_cases hn : n = [] <;> by_cases hn' : n' = []
  · rw [hn, hn']
  · exfalso
    rw [if_pos hn, if_neg hn'] at h
    split_ifs at h with hd
    · rw [hd] at h
      have hlen := congrArg List.length h
      simp only [List.length_cons, List.length_singleton, List.length_nil] at hlen
      have : n' = [] := List.length_eq_zero.mp (by omega)
      exact hn' this
    · have hlen := congrArg List.length h
      simp only [List.length_append, List.length_cons] at hlen
      omega
  · exfalso
    rw [if_neg hn, if_pos hn'] at h
    split_ifs at h with hd
    · rw [hd] at h
      have hlen := congrArg List.length h
      simp only [List.length_cons, List.length_singleton, List.length_nil] at hlen
      have : n = [] := List.length_eq_zero.mp (by omega)
      exact hn this
    · have hlen := congrArg List.length h
      simp only [List.length_append, List.length_cons] at hlen
      omega
  · rw [if_neg hn, if_neg hn'] at h
    split_ifs at h with hd
    · injection h
    · have := List.append_cancel_left h
      injection this

theorem isAncestorName_iff {a n : Path} :
    isAncestorName a n = true ↔ a ≠ [] ∧ ∃ r, n = a ++ '/' :: r := by
  unfold isAncestorName
  simp only [Bool.and_eq_true, decide_eq_true_eq, List.isPrefixOf_iff_prefix]
  constructor
  · rintro ⟨hne, r, hr⟩
    exact ⟨hne, r, by rw [← hr]; simp⟩
  · rintro ⟨hne, r, hr⟩
    exact ⟨hne, r, by rw [hr]; simp⟩

theorem not_self_slash_prefixOf (x : Path) :
    ((x ++ ['/']).isPrefixOf x) = false := by
  cases hbe : (x ++ ['/']).isPrefixOf x
  · rfl
  · exfalso
    have := List.isPrefixOf_iff_prefix.mp hbe
    have hlen := List.IsPrefix.length_le this
    simp at hlen

theorem trimLeadSlash_fix_no_slash {nm : Path} (h : trimLeadSlash nm = nm) :
    nm.head? ≠ some '/' := by
  intro hh
  cases nm with
  | nil => cases hh
  | cons c r =>
    injection hh with hh
    subst hh
    rw [show trimLeadSlash ('/' :: r) = r from rfl] at h
    have := congrArg List.length h
    simp at this

theorem prefix_trichotomy {a D n : Path} (ha : isAncestorName a n = true)
    (hD : isAncestorName D n = true) :
    a = D ∨ isAncestorName a D = true ∨ isAncestorName D a = true := by
  obtain ⟨hane, ra, hra⟩ := isAncestorName_iff.mp ha
  obtain ⟨hDne, rD, hrD⟩ := isAncestorName_iff.mp hD
  rcases Nat.lt_trichotomy a.length D.length with hlt | heq | hgt
  · right; left
    rw [isAncestorName_iff]
    refine ⟨hane, ?_⟩
    have hpre : a ++ '/' :: ra = D ++ '/' :: rD := by rw [← hra, ← hrD]
    have haD : a <+: D := by
      have h1 : a <+: (a ++ '/' :: ra) := ⟨'/' :: ra, rfl⟩
      rw [hpre] at h1
      exact List.prefix_of_prefix_length_le h1 ⟨'/' :: rD, rfl⟩ (by omega)
    obtain ⟨t, ht⟩ := haD
    have htne : t ≠ [] := by
      intro habs
      rw [habs] at ht
      simp only [List.append_nil] at ht
      rw [ht] at hlt
      omega
    have hthead : ∃ t', t = '/' :: t' := by
      rw [← ht] at hpre
      rw [List.append_assoc] at hpre
      have := List.append_cancel_left hpre
      cases t with
      | nil => exact absurd rfl htne
      | cons c t' =>
        simp only [List.cons_append] at this
        injection this with h1 h2
        exact ⟨t', by rw [h1]⟩
    obtain ⟨t', ht'⟩ := hthead
    exact ⟨t', by rw [← ht, ht']⟩
  · left
    have hpre : a ++ '/' :: ra = D ++ '/' :: rD := by rw [← hra, ← hrD]
    have haD : a <+: D := by
      have h1 : a <+: (a ++ '/' :: ra) := ⟨'/' :: ra, rfl⟩
      rw [hpre] at h1
      exact List.prefix_of_prefix_length_le h1 ⟨'/' :: rD, rfl⟩ (by omega)
    exact List.IsPrefix.eq_of_length haD heq
  · right; right
    rw [isAncestorName_iff]
    refine ⟨hDne, ?_⟩
    have hpre : D ++ '/' :: rD = a ++ '/' :: ra := by rw [← hra, ← hrD]
    have hDa : D <+: a := by
      have h1 : D <+: (D ++ '/' :: rD) := ⟨'/' :: rD, rfl⟩
      rw [hpre] at h1
      exact List.prefix_of_prefix_length_le h1 ⟨'/' :: ra, rfl⟩ (by omega)
    obtain ⟨t, ht⟩ := hDa
    have htne : t ≠ [] := by
      intro habs
      rw [habs] at ht
      simp only [List.append_nil] at ht
      rw [ht] at hgt
      omega
    have hthead : ∃ t', t = '/' :: t' := by
      rw [← ht] at hpre
      rw [List.append_assoc] at hpre
      have := List.append_cancel_left hpre
      cases t with
      | nil => exact absurd rfl htne
      | cons c t' =>
        simp only [List.cons_append] at this
        injection this with h1 h2
        exact ⟨t', by rw [h1]⟩
    obtain ⟨t', ht'⟩ := hthead
    exact ⟨t', by rw [← ht, ht']⟩

theorem trims_noMeta {f : Path} (h : noMeta f = true) :
    noMeta (trimTrailSlash (trimLeadSlash f)) = true := by
  have h1 : noMeta (trimLeadSlash f) = true := by
    cases f with
    | nil => exact h
    | cons c r =>
      rw [show trimLeadSlash (c :: r) = if c = '/' then r else c :: r from rfl]
      split_ifs with hc
      · simp only [noMeta, List.all_cons, Bool.and_eq_true] at h
        exact h.2
      · exact h
  unfold trimTrailSlash
  split_ifs with hl
  · unfold noMeta at h1 ⊢
    rw [List.all_eq_true] at h1 ⊢
    intro c hc
    exact h1 c (List.dropLast_subset _ hc)
  · exact h1

theorem cacheFileFn_files (dest cn : Path) (e : WalkEntry) (st : WalkSt) :
    (cacheFileFn dest cn e st).files
      = alSet st.files (joinP dest cn)
          (CEntry.withSum (joinP dest cn) e.hdr (hashFile e.hdr e.content)) := rfl

theorem cacheFileFn_dirs (dest cn : Path) (e : WalkEntry) (st : WalkSt) :
    (cacheFileFn dest cn e st).dirsToCache
      = (if e.hdr.kind = FileKind.dir then st.dirsToCache ++ [cn]
         else st.dirsToCache) := rfl

theorem cacheFileFn_content_self (dest cn : Path) (e : WalkEntry) (st : WalkSt) :
    contentAtF (cacheFileFn dest cn e st).files (joinP dest cn) = true := by
  unfold contentAtF
  rw [cacheFileFn_files, alGet_alSet_self]

theorem cacheFileFn_get_mono (dest cn : Path) (e : WalkEntry) (st : WalkSt)
    (k : Path) (h : (alGet st.files k).isSome) :
    (alGet (cacheFileFn dest cn e st).files k).isSome := by
  rw [cacheFileFn_files]
  exact alGet_isSome_alSet _ _ _ _ h

theorem cacheFileFn_content_mono (dest cn : Path) (e : WalkEntry) (st : WalkSt)
    (k : Path) (h : contentAtF st.files k = true) :
    contentAtF (cacheFileFn dest cn e st).files k = true := by
  rw [cacheFileFn_files]
  by_cases hk : k = joinP dest cn
  · subst hk
    unfold contentAtF
    rw [alGet_alSet_self]
  · unfold contentAtF
    rw [alGet_alSet_ne _ _ _ _ hk]
    exact h

theorem cacheFileFn_content_new (dest cn : Path) (e : WalkEntry) (st : WalkSt)
    (k : Path) (h : contentAtF (cacheFileFn dest cn e st).files k = true) :
    contentAtF st.files k = true ∨ k = joinP dest cn := by
  by_cases hk : k = joinP dest cn
  · right; exact hk
  · left
    rw [cacheFileFn_files] at h
    unfold contentAtF at h ⊢
    rw [alGet_alSet_ne _ _ _ _ hk] at h
    exact h

theorem patLoop_cons (dest cn : Path) (e : WalkEntry) (f : Path)
    (fs : List Path) (st : WalkSt) :
    patLoop dest cn e (f :: fs) st =
      (if goMatch (trimTrailSlash (trimLeadSlash f)) cn = some true then
        cacheFileFn dest cn e st
      else
        patLoop dest cn e fs
          (if cn = [] ∨ (cn ++ ['/']).isPrefixOf (trimTrailSlash (trimLeadSlash f)) then
            match alGet st.files (joinP dest cn) with
            | none => { st with files := alSet st.files (joinP dest cn) (CEntry.plain dest e.hdr) }
            | some _ => st
          else st)) := rfl

theorem patLoop_get_mono (dest cn : Path) (e : WalkEntry) :
    ∀ (fs : List Path) (st : WalkSt) (k : Path),
    (alGet st.files k).isSome →
    (alGet (patLoop dest cn e fs st).files k).isSome := by
  intro fs
  induction fs with
  | nil => intro st k h; exact h
  | cons f fs ih =>
    intro st k h
    rw [patLoop_cons]
    split_ifs with hm hpre
    · exact cacheFileFn_get_mono dest cn e st k h
    · cases halg : alGet st.files (joinP dest cn) with
      | none =>
        dsimp only
        apply ih
        by_cases hk : k = joinP dest cn
        · subst hk
          rw [alGet_alSet_self]
          rfl
        · rw [alGet_alSet_ne _ _ _ _ hk]
          exact h
      | some v =>
        dsimp only
        exact ih st k h
    · exact ih st k h

theorem patLoop_content_mono (dest cn : Path) (e : WalkEntry) :
    ∀ (fs : List Path) (st : WalkSt) (k : Path),
    contentAtF st.files k = true →
    contentAtF (patLoop dest cn e fs st).files k = true := by
  intro fs
  induction fs with
  | nil => intro st k h; exact h
  | cons f fs ih =>
    intro st k h
    rw [patLoop_cons]
    split_ifs with hm hpre
    · exact cacheFileFn_content_mono dest cn e st k h
    · cases halg : alGet st.files (joinP dest cn) with
      | none =>
        dsimp only
        apply ih
        by_cases hk : k = joinP dest cn
        · subst hk
          unfold contentAtF at h
          rw [halg] at h
          cases h
        · unfold contentAtF at h ⊢
          dsimp only
          rw [alGet_alSet_ne _ _ _ _ hk]
          exact h
      | some v =>
        dsimp only
        exact ih st k h
    · exact ih st k h

theorem patLoop_dirs_mono (dest cn : Path) (e : WalkEntry) :
    ∀ (fs : List Path) (st : WalkSt) (D : Path),
    D ∈ st.dirsToCache → D ∈ (patLoop dest cn e fs st).dirsToCache := by
  intro fs
  induction fs with
  | nil => intro st D h; exact h
  | cons f fs ih =>
    intro st D h
    rw [patLoop_cons]
    split_ifs with hm hpre
    · rw [show (cacheFileFn dest cn e st).dirsToCache
          = (if e.hdr.kind = FileKind.dir then st.dirsToCache ++ [cn]
             else st.dirsToCache) from rfl]
      split_ifs with hd
      · exact List.mem_append_left _ h
      · exact h
    · cases halg : alGet st.files (joinP dest cn) with
      | none =>
        dsimp only
        exact ih _ D h
      | some v =>
        dsimp only
        exact ih st D h
    · exact ih st D h

theorem patLoop_content_new (dest cn : Path) (e : WalkEntry) :
    ∀ (fs : List Path) (st : WalkSt) (k : Path),
    contentAtF (patLoop dest cn e fs st).files k = true →
    contentAtF st.files k = true ∨ (k = joinP dest cn ∧
      ∃ f ∈ fs, goMatch (trimTrailSlash (trimLeadSlash f)) cn = some true) := by
  intro fs
  induction fs with
  | nil => intro st k h; left; exact h
  | cons f fs ih =>
    intro st k h
    rw [patLoop_cons] at h
    split_ifs at h with hm hpre
    · rcases cacheFileFn_content_new dest cn e st k h with hc | hc
      · left; exact hc
      · right
        exact ⟨hc, f, List.mem_cons_self f fs, hm⟩
    · cases halg : alGet st.files (joinP dest cn) with
      | none =>
        rw [halg] at h
        rcases ih _ k h with hc | ⟨hk, f', hf', hm'⟩
        · by_cases hk : k = joinP dest cn
          · subst hk
            unfold contentAtF at hc
            dsimp only at hc
            rw [alGet_alSet_self] at hc
            cases hc
          · left
            unfold contentAtF at hc ⊢
            dsimp only at hc
            rw [alGet_alSet_ne _ _ _ _ hk] at hc
            exact hc
        · right
          exact ⟨hk, f', List.mem_cons_of_mem f hf', hm'⟩
      | some v =>
        rw [halg] at h
        rcases ih st k h with hc | ⟨hk, f', hf', hm'⟩
        · left; exact hc
        · right
          exact ⟨hk, f', List.mem_cons_of_mem f hf', hm'⟩
    · rcases ih st k h with hc | ⟨hk, f', hf', hm'⟩
      · left; exact hc
      · right
        exact ⟨hk, f', List.mem_cons_of_mem f hf', hm'⟩

theorem patLoop_dirs_new (dest cn : Path) (e : WalkEntry) :
    ∀ (fs : List Path) (st : WalkSt) (D : Path),
    D ∈ (patLoop dest cn e fs st).dirsToCache →
    D ∈ st.dirsToCache ∨ (D = cn ∧ e.hdr.kind = FileKind.dir ∧
      contentAtF (patLoop dest cn e fs st).files (joinP dest cn) = true) := by
  intro fs
  induction fs with
  | nil => intro st D h; left; exact h
  | cons f fs ih =>
    intro st D h
    rw [patLoop_cons] at h
    split_ifs at h with hm hpre
    · rw [show (cacheFileFn dest cn e st).dirsToCache
          = (if e.hdr.kind = FileKind.dir then st.dirsToCache ++ [cn]
             else st.dirsToCache) from rfl] at h
      split_ifs at h with hd
      · rcases List.mem_append.mp h with h' | h'
        · left; exact h'
        · right
          refine ⟨by simpa using h', hd, ?_⟩
          rw [patLoop_cons, if_pos hm]
          exact cacheFileFn_content_self dest cn e st
      · left; exact h
    · cases halg : alGet st.files (joinP dest cn) with
      | none =>
        rw [halg] at h
        rcases ih _ D h with h' | ⟨h1, h2, h3⟩
        · left; exact h'
        · right
          refine ⟨h1, h2, ?_⟩
          rw [patLoop_cons, if_neg hm, if_pos hpre, halg]
          dsimp only
          exact h3
      | some v =>
        rw [halg] at h
        rcases ih st D h with h' | ⟨h1, h2, h3⟩
        · left; exact h'
        · right
          refine ⟨h1, h2, ?_⟩
          rw [patLoop_cons, if_neg hm, if_pos hpre, halg]
          dsimp only
          exact h3
    · rcases ih st D h with h' | ⟨h1, h2, h3⟩
      · left; exact h'
      · right
        refine ⟨h1, h2, ?_⟩
        rw [patLoop_cons, if_neg hm, if_neg hpre]
        exact h3

theorem patLoop_key_if_hit (dest cn : Path) (e : WalkEntry) :
    ∀ (fs : List Path) (st : WalkSt),
    (∃ f ∈ fs, goMatch (trimTrailSlash (trimLeadSlash f)) cn = some true
      ∨ cn = [] ∨ (cn ++ ['/']).isPrefixOf (trimTrailSlash (trimLeadSlash f))) →
    (alGet (patLoop dest cn e fs st).files (joinP dest cn)).isSome := by
  intro fs
  induction fs with
  | nil =>
    rintro st ⟨f, hf, -⟩
    cases hf
  | cons f fs ih =>
    rintro st ⟨f0, hf0, hprop⟩
    rw [patLoop_cons]
    split_ifs with hm hpre
    · rw [cacheFileFn_files, alGet_alSet_self]
      rfl
    · cases halg : alGet st.files (joinP dest cn) with
      | none =>
        dsimp only
        apply patLoop_get_mono
        dsimp only
        rw [alGet_alSet_self]
        rfl
      | some v =>
        dsimp only
        apply patLoop_get_mono
        rw [halg]
        rfl
    · rcases List.mem_cons.mp hf0 with hf0' | hf0'
      · subst hf0'
        rcases hprop with hp | hp | hp
        · exact absurd hp hm
        · exact absurd (Or.inl hp) hpre
        · exact absurd (Or.inr hp) hpre
      · exact ih st ⟨f0, hf0', hprop⟩

theorem walkStep_eq (pats : List Path) (dest : Path) (st : WalkSt)
    (e : WalkEntry) :
    walkStep pats dest st e =
      (if st.dirsToCache.any
          (fun dir => (dir ++ ['/']).isPrefixOf (trimLeadSlash e.name)) then
        cacheFileFn dest (trimLeadSlash e.name) e st
      else patLoop dest (trimLeadSlash e.name) e pats st) := rfl

theorem walkStep_get_mono (pats : List Path) (dest : Path) (st : WalkSt)
    (e : WalkEntry) (k : Path) (h : (alGet st.files k).isSome) :
    (alGet (walkStep pats dest st e).files k).isSome := by
  rw [walkStep_eq]
  split_ifs with hA
  · exact cacheFileFn_get_mono dest _ e st k h
  · exact patLoop_get_mono dest _ e pats st k h

theorem walkStep_content_mono (pats : List Path) (dest : Path) (st : WalkSt)
    (e : WalkEntry) (k : Path) (h : contentAtF st.files k = true) :
    contentAtF (walkStep pats dest st e).files k = true := by
  rw [walkStep_eq]
  split_ifs with hA
  · exact cacheFileFn_content_mono dest _ e st k h
  · exact patLoop_content_mono dest _ e pats st k h

theorem walkStep_dirs_mono (pats : List Path) (dest : Path) (st : WalkSt)
    (e : WalkEntry) (D : Path) (h : D ∈ st.dirsToCache) :
    D ∈ (walkStep pats dest st e).dirsToCache := by
  rw [walkStep_eq]
  split_ifs with hA
  · rw [cacheFileFn_dirs]
    split_ifs with hd
    · exact List.mem_append_left _ h
    · exact h
  · exact patLoop_dirs_mono dest _ e pats st D h

theorem walkStep_content_new (pats : List Path) (dest : Path) (st : WalkSt)
    (e : WalkEntry) (k : Path)
    (h : contentAtF (walkStep pats dest st e).files k = true) :
    contentAtF st.files k = true ∨ (k = joinP dest (trimLeadSlash e.name) ∧
      (st.dirsToCache.any
          (fun dir => (dir ++ ['/']).isPrefixOf (trimLeadSlash e.name)) = true
        ∨ ∃ f ∈ pats,
            goMatch (trimTrailSlash (trimLeadSlash f)) (trimLeadSlash e.name)
              = some true)) := by
  rw [walkStep_eq] at h
  split_ifs at h with hA
  · rcases cacheFileFn_content_new dest _ e st k h with hc | hc
    · left; exact hc
    · right; exact ⟨hc, Or.inl hA⟩
  · rcases patLoop_content_new dest _ e pats st k h with hc | ⟨hk, f, hf, hm⟩
    · left; exact hc
    · right; exact ⟨hk, Or.inr ⟨f, hf, hm⟩⟩

theorem walkStep_dirs_new (pats : List Path) (dest : Path) (st : WalkSt)
    (e : WalkEntry) (D : Path)
    (h : D ∈ (walkStep pats dest st e).dirsToCache) :
    D ∈ st.dirsToCache ∨ (D = trimLeadSlash e.name
      ∧ e.hdr.kind = FileKind.dir
      ∧ contentAtF (walkStep pats dest st e).files
          (joinP dest (trimLeadSlash e.name)) = true) := by
  rw [walkStep_eq] at h ⊢
  split_ifs at h ⊢ with hA
  · rw [cacheFileFn_dirs] at h
    split_ifs at h with hd
    · rcases List.mem_append.mp h with h' | h'
      · left; exact h'
      · right
        exact ⟨by simpa using h', hd, cacheFileFn_content_self dest _ e st⟩
    · left; exact h
  · rcases patLoop_dirs_new dest _ e pats st D h with h' | ⟨h1, h2, h3⟩
    · left; exact h'
    · right; exact ⟨h1, h2, h3⟩

theorem walkStep_key_if_hit (pats : List Path) (dest : Path) (st : WalkSt)
    (e : WalkEntry)
    (hex : ∃ f ∈ pats,
        goMatch (trimTrailSlash (trimLeadSlash f)) (trimLeadSlash e.name)
            = some true
          ∨ trimLeadSlash e.name = []
          ∨ ((trimLeadSlash e.name) ++ ['/']).isPrefixOf
              (trimTrailSlash (trimLeadSlash f))) :
    (alGet (walkStep pats dest st e).files
      (joinP dest (trimLeadSlash e.name))).isSome := by
  rw [walkStep_eq]
  split_ifs with hA
  · rw [cacheFileFn_files, alGet_alSet_self]
    rfl
  · exact patLoop_key_if_hit dest _ e pats st hex

theorem walkStep_content_if_dirhit (pats : List Path) (dest : Path)
    (st : WalkSt) (e : WalkEntry)
    (hA : st.dirsToCache.any
        (fun dir => (dir ++ ['/']).isPrefixOf (trimLeadSlash e.name)) = true) :
    contentAtF (walkStep pats dest st e).files
      (joinP dest (trimLeadSlash e.name)) = true := by
  rw [walkStep_eq, if_pos hA]
  exact cacheFileFn_content_self dest _ e st

theorem contentAtF_isSome {m : List (Path × CEntry)} {k : Path}
    (h : contentAtF m k = true) : (alGet m k).isSome := by
  unfold contentAtF at h
  cases halg : alGet m k with
  | none => rw [halg] at h; cases h
  | some v => rfl

theorem isAncestorName_prefixOf {a n : Path} (h : isAncestorName a n = true) :
    ((a ++ ['/']).isPrefixOf n) = true := by
  unfold isAncestorName at h
  simp only [Bool.and_eq_true] at h
  exact h.2

theorem prefix_slash_head {nm : Path}
    (h : ((['/'] : Path).isPrefixOf nm) = true) : nm.head? = some '/' := by
  obtain ⟨t, ht⟩ := List.isPrefixOf_iff_prefix.mp h
  rw [← ht]
  rfl

theorem isAncestorName_of_prefix_clean {D nm : Path}
    (hpre : ((D ++ ['/']).isPrefixOf nm) = true)
    (hclean : trimLeadSlash nm = nm) : isAncestorName D nm = true := by
  unfold isAncestorName
  rw [hpre]
  by_cases hD : D = []
  · exfalso
    subst hD
    simp only [List.nil_append] at hpre
    exact trimLeadSlash_fix_no_slash hclean (prefix_slash_head hpre)
  · simp [hD]

theorem prefixOf_trans_slash {A B n : Path}
    (h1 : ((A ++ ['/']).isPrefixOf B) = true)
    (h2 : ((B ++ ['/']).isPrefixOf n) = true) :
    ((A ++ ['/']).isPrefixOf n) = true := by
  rw [List.isPrefixOf_iff_prefix] at h1 h2 ⊢
  exact h1.trans ((List.prefix_append B ['/']).trans h2)

theorem patLoop_dirs_if_hit (dest cn : Path) (e : WalkEntry)
    (hd : e.hdr.kind = FileKind.dir) :
    ∀ (fs : List Path) (st : WalkSt),
    (∃ f ∈ fs, goMatch (trimTrailSlash (trimLeadSlash f)) cn = some true) →
    cn ∈ (patLoop dest cn e fs st).dirsToCache := by
  intro fs
  induction fs with
  | nil =>
    rintro st ⟨f, hf, -⟩
    cases hf
  | cons f fs ih =>
    rintro st ⟨f0, hf0, hm0⟩
    rw [patLoop_cons]
    split_ifs with hm hpre
    · rw [cacheFileFn_dirs, if_pos hd]
      exact List.mem_append_right _ (by simp)
    · have hf0' : f0 ∈ fs := by
        rcases List.mem_cons.mp hf0 with h | h
        · exact absurd (h ▸ hm0) hm
        · exact h
      cases halg : alGet st.files (joinP dest cn) with
      | none =>
        dsimp only
        exact ih _ ⟨f0, hf0', hm0⟩
      | some v =>
        dsimp only
        exact ih st ⟨f0, hf0', hm0⟩
    · have hf0' : f0 ∈ fs := by
        rcases List.mem_cons.mp hf0 with h | h
        · exact absurd (h ▸ hm0) hm
        · exact h
      exact ih st ⟨f0, hf0', hm0⟩

theorem patLoop_dirs_new_match (dest cn : Path) (e : WalkEntry) :
    ∀ (fs : List Path) (st : WalkSt) (D : Path),
    D ∈ (patLoop dest cn e fs st).dirsToCache →
    D ∈ st.dirsToCache ∨
      ∃ f ∈ fs, goMatch (trimTrailSlash (trimLeadSlash f)) cn = some true := by
  intro fs
  induction fs with
  | nil => intro st D h; left; exact h
  | cons f fs ih =>
    intro st D h
    rw [patLoop_cons] at h
    split_ifs at h with hm hpre
    · rw [cacheFileFn_dirs] at h
      split_ifs at h with hd
      · rcases List.mem_append.mp h with h' | h'
        · left; exact h'
        · right; exact ⟨f, List.mem_cons_self f fs, hm⟩
      · left; exact h
    · cases halg : alGet st.files (joinP dest cn) with
      | none =>
        rw [halg] at h
        rcases ih _ D h with h' | ⟨f', hf', hm'⟩
        · left; exact h'
        · right; exact ⟨f', List.mem_cons_of_mem f hf', hm'⟩
      | some v =>
        rw [halg] at h
        rcases ih st D h with h' | ⟨f', hf', hm'⟩
        · left; exact h'
        · right; exact ⟨f', List.mem_cons_of_mem f hf', hm'⟩
    · rcases ih st D h with h' | ⟨f', hf', hm'⟩
      · left; exact h'
      · right; exact ⟨f', List.mem_cons_of_mem f hf', hm'⟩

theorem walkStep_dirs_if_hit (pats : List Path) (dest : Path) (st : WalkSt)
    (e : WalkEntry) (hd : e.hdr.kind = FileKind.dir)
    (hex : st.dirsToCache.any
        (fun dir => (dir ++ ['/']).isPrefixOf (trimLeadSlash e.name)) = true
      ∨ ∃ f ∈ pats, goMatch (trimTrailSlash (trimLeadSlash f))
          (trimLeadSlash e.name) = some true) :
    trimLeadSlash e.name ∈ (walkStep pats dest st e).dirsToCache := by
  rw [walkStep_eq]
  split_ifs with hA
  · rw [cacheFileFn_dirs, if_pos hd]
    exact List.mem_append_right _ (by simp)
  · rcases hex with h | h
    · exact absurd h hA
    · exact patLoop_dirs_if_hit dest _ e hd pats st h

theorem walkStep_dirs_new_cause (pats : List Path) (dest : Path) (st : WalkSt)
    (e : WalkEntry) (D : Path)
    (h : D ∈ (walkStep pats dest st e).dirsToCache) :
    D ∈ st.dirsToCache ∨
      (st.dirsToCache.any
          (fun dir => (dir ++ ['/']).isPrefixOf (trimLeadSlash e.name)) = true
        ∨ ∃ f ∈ pats, goMatch (trimTrailSlash (trimLeadSlash f))
            (trimLeadSlash e.name) = some true) := by
  rw [walkStep_eq] at h
  split_ifs at h with hA
  · right; left; exact hA
  · rcases patLoop_dirs_new_match dest _ e pats st D h with h' | hex
    · left; exact h'
    · right; right; exact hex

/-- The invariant carried along the walk for C8 (amended): (1) every
content entry's ancestors have entries in the map; (2) every open cached
directory is content-cached and came from a processed directory entry;
(3) every processed entry lying under an open cached directory is
content-cached; (4) every processed entry that is a path prefix of some
pattern has an entry in the map; (5) every processed directory entry
whose name hits a pattern is an open cached directory — names may repeat
across the walk, as they do across the layers of one image. -/
def WalkInv (pats : List Path) (dest : Path) (st : WalkSt)
    (done : List WalkEntry) : Prop :=
  (∀ n, contentAtF st.files (joinP dest n) = true →
      ∀ a, isAncestorName a n = true → (alGet st.files (joinP dest a)).isSome)
  ∧ (∀ D ∈ st.dirsToCache, contentAtF st.files (joinP dest D) = true ∧
      ∃ d ∈ done, d.name = D ∧ d.hdr.kind = FileKind.dir)
  ∧ (∀ D ∈ st.dirsToCache, ∀ d ∈ done,
      ((D ++ ['/']).isPrefixOf d.name) = true →
      contentAtF st.files (joinP dest d.name) = true)
  ∧ (∀ d ∈ done, ∀ f ∈ pats,
      ((d.name ++ ['/']).isPrefixOf (trimTrailSlash (trimLeadSlash f))) = true →
      (alGet st.files (joinP dest d.name)).isSome)
  ∧ (∀ d ∈ done, d.hdr.kind = FileKind.dir →
      (∃ f ∈ pats,
        goMatch (trimTrailSlash (trimLeadSlash f)) d.name = some true) →
      d.name ∈ st.dirsToCache)

theorem walk_inv_step (pats : List Path) (dest : Path) (st : WalkSt)
    (done : List WalkEntry) (cur : WalkEntry)
    (hpats : ∀ f ∈ pats, noMeta f = true)
    (hcleanCur : trimLeadSlash cur.name = cur.name)
    (hcleanDone : ∀ d ∈ done, trimLeadSlash d.name = d.name)
    (hanc : ∀ a, isAncestorName a cur.name = true →
        ∃ d ∈ done, d.name = a ∧ d.hdr.kind = FileKind.dir)
    (hancDone : ∀ d ∈ done, ∀ a, isAncestorName a d.name = true →
        ∃ d' ∈ done, d'.name = a ∧ d'.hdr.kind = FileKind.dir)
    (hinv : WalkInv pats dest st done) :
    WalkInv pats dest (walkStep pats dest st cur) (done ++ [cur]) := by
  obtain ⟨inv1, inv2, inv3, inv4, inv5⟩ := hinv
  refine ⟨?_, ?_, ?_, ?_, ?_⟩
  · -- (1) ancestors of content entries are present
    intro n hn a ha
    rcases walkStep_content_new pats dest st cur (joinP dest n) hn with hold | ⟨hkey, hbr⟩
    · exact walkStep_get_mono _ _ _ _ _ (inv1 n hold a ha)
    · have hne : n = cur.name := by
        have := joinP_inj hkey
        rw [hcleanCur] at this
        exact this
      rw [hne] at ha
      obtain ⟨da, hda_mem, hda_name, hda_kind⟩ := hanc a ha
      rcases hbr with hA | ⟨f, hf, hm⟩
      · rw [List.any_eq_true] at hA
        obtain ⟨D, hD_mem, hDpre⟩ := hA
        rw [hcleanCur] at hDpre
        have hD_anc : isAncestorName D cur.name = true :=
          isAncestorName_of_prefix_clean hDpre hcleanCur
        rcases prefix_trichotomy ha hD_anc with heq | hAD | hDA
        · rw [heq]
          exact walkStep_get_mono _ _ _ _ _
            (contentAtF_isSome (inv2 D hD_mem).1)
        · exact walkStep_get_mono _ _ _ _ _
            (inv1 D (inv2 D hD_mem).1 a hAD)
        · have hpre' : ((D ++ ['/']).isPrefixOf da.name) = true := by
            rw [hda_name]
            exact isAncestorName_prefixOf hDA
          have hc := inv3 D hD_mem da hda_mem hpre'
          rw [hda_name] at hc
          exact walkStep_get_mono _ _ _ _ _ (contentAtF_isSome hc)
      · have hf' := trims_noMeta (hpats f hf)
        rw [hcleanCur] at hm
        have hfeq : trimTrailSlash (trimLeadSlash f) = cur.name :=
          (goMatch_noMeta hf' _).mp hm
        have hprea : ((da.name ++ ['/']).isPrefixOf
            (trimTrailSlash (trimLeadSlash f))) = true := by
          rw [hfeq, hda_name]
          exact isAncestorName_prefixOf ha
        have hs := inv4 da hda_mem f hf hprea
        rw [hda_name] at hs
        exact walkStep_get_mono _ _ _ _ _ hs
  · -- (2) open cached directories are content-cached directory entries
    intro D hD
    rcases walkStep_dirs_new pats dest st cur D hD with hold | ⟨h1, h2, h3⟩
    · obtain ⟨hcont, d, hd_mem, hd_props⟩ := inv2 D hold
      exact ⟨walkStep_content_mono _ _ _ _ _ hcont, d,
        List.mem_append_left _ hd_mem, hd_props⟩
    · rw [hcleanCur] at h1 h3
      rw [h1]
      exact ⟨h3, cur, List.mem_append_right _ (by simp), rfl, h2⟩
  · -- (3) processed entries under an open cached directory are cached
    intro D hD d hd hpre
    rcases List.mem_append.mp hd with hd_old | hd_cur
    · rcases walkStep_dirs_new pats dest st cur D hD with hold | ⟨h1, h2, h3⟩
      · exact walkStep_content_mono _ _ _ _ _ (inv3 D hold d hd_old hpre)
      · rw [hcleanCur] at h1
        rw [h1] at hpre
        rcases walkStep_dirs_new_cause pats dest st cur D hD with hold2 | hA | ⟨f, hf, hm⟩
        · rw [h1] at hold2
          exact walkStep_content_mono _ _ _ _ _ (inv3 cur.name hold2 d hd_old hpre)
        · rw [hcleanCur, List.any_eq_true] at hA
          obtain ⟨D', hD'_mem, hD'pre⟩ := hA
          have hpre2 : ((D' ++ ['/']).isPrefixOf d.name) = true :=
            prefixOf_trans_slash hD'pre hpre
          exact walkStep_content_mono _ _ _ _ _ (inv3 D' hD'_mem d hd_old hpre2)
        · rw [hcleanCur] at hm
          have hanc_d : isAncestorName cur.name d.name = true :=
            isAncestorName_of_prefix_clean hpre (hcleanDone d hd_old)
          obtain ⟨dold, hdold_mem, hdold_name, hdold_kind⟩ :=
            hancDone d hd_old cur.name hanc_d
          have hopen := inv5 dold hdold_mem hdold_kind
            ⟨f, hf, by rw [hdold_name]; exact hm⟩
          rw [hdold_name] at hopen
          exact walkStep_content_mono _ _ _ _ _ (inv3 cur.name hopen d hd_old hpre)
    · have hd_eq : d = cur := by simpa using hd_cur
      rw [hd_eq] at hpre ⊢
      rcases walkStep_dirs_new pats dest st cur D hD with hold | ⟨h1, h2, h3⟩
      · have hA : st.dirsToCache.any
            (fun dir => (dir ++ ['/']).isPrefixOf (trimLeadSlash cur.name))
              = true := by
          rw [List.any_eq_true]
          refine ⟨D, hold, ?_⟩
          rw [hcleanCur]
          exact hpre
        have hc := walkStep_content_if_dirhit pats dest st cur hA
        rw [hcleanCur] at hc
        exact hc
      · exfalso
        rw [hcleanCur] at h1
        rw [h1] at hpre
        rw [not_self_slash_prefixOf] at hpre
        cases hpre
  · -- (4) processed entries that prefix a pattern are keyed
    intro d hd f hf hpre
    rcases List.mem_append.mp hd with hd_old | hd_cur
    · exact walkStep_get_mono _ _ _ _ _ (inv4 d hd_old f hf hpre)
    · have hd_eq : d = cur := by simpa using hd_cur
      rw [hd_eq] at hpre ⊢
      have hs := walkStep_key_if_hit pats dest st cur
        ⟨f, hf, Or.inr (Or.inr (by rw [hcleanCur]; exact hpre))⟩
      rw [hcleanCur] at hs
      exact hs
  · -- (5) processed directory entries with a pattern hit are open
    intro d hd hkind hhit
    rcases List.mem_append.mp hd with hd_old | hd_cur
    · exact walkStep_dirs_mono _ _ _ _ _ (inv5 d hd_old hkind hhit)
    · have hd_eq : d = cur := by simpa using hd_cur
      rw [hd_eq] at hkind hhit ⊢
      obtain ⟨f, hf, hm⟩ := hhit
      have hopen := walkStep_dirs_if_hit pats dest st cur hkind
        (Or.inr ⟨f, hf, by rw [hcleanCur]; exact hm⟩)
      rw [hcleanCur] at hopen
      exact hopen

theorem walkFrom_inv (pats : List Path) (dest : Path)
    (hpats : ∀ f ∈ pats, noMeta f = true) :
    ∀ (rest done : List WalkEntry) (st : WalkSt),
      (∀ d ∈ done ++ rest, trimLeadSlash d.name = d.name) →
      ancClosedB done rest = true →
      (∀ d ∈ done, ∀ a, isAncestorName a d.name = true →
          ∃ d' ∈ done, d'.name = a ∧ d'.hdr.kind = FileKind.dir) →
      WalkInv pats dest st done →
      WalkInv pats dest (rest.foldl (walkStep pats dest) st) (done ++ rest) := by
  intro rest
  induction rest with
  | nil =>
    intro done st _ _ _ hinv
    simpa using hinv
  | cons cur rest ih =>
    intro done st hclean hac hancDone hinv
    rw [show ancClosedB done (cur :: rest) =
        (((ancList cur.name).all (fun a => done.any (fun d =>
            decide (d.name = a) && decide (d.hdr.kind = FileKind.dir))))
          && ancClosedB (done ++ [cur]) rest) from rfl,
      Bool.and_eq_true] at hac
    have hanc : ∀ a, isAncestorName a cur.name = true →
        ∃ d ∈ done, d.name = a ∧ d.hdr.kind = FileKind.dir := by
      intro a ha
      have h1 := hac.1
      rw [List.all_eq_true] at h1
      have h2 := h1 a (mem_ancList.mpr ha)
      rw [List.any_eq_true] at h2
      obtain ⟨d, hd, hdd⟩ := h2
      rw [Bool.and_eq_true, decide_eq_true_eq, decide_eq_true_eq] at hdd
      exact ⟨d, hd, hdd⟩
    have hcleanCur : trimLeadSlash cur.name = cur.name :=
      hclean cur (by simp)
    have hcleanDone : ∀ d ∈ done, trimLeadSlash d.name = d.name :=
      fun d hd => hclean d (List.mem_append_left _ hd)
    have hstep := walk_inv_step pats dest st done cur hpats hcleanCur
      hcleanDone hanc hancDone hinv
    have hancDone2 : ∀ d ∈ done ++ [cur], ∀ a, isAncestorName a d.name = true →
        ∃ d' ∈ done ++ [cur], d'.name = a ∧ d'.hdr.kind = FileKind.dir := by
      intro d hd a ha
      rcases List.mem_append.mp hd with h | h
      · obtain ⟨d', hm, hp⟩ := hancDone d h a ha
        exact ⟨d', List.mem_append_left _ hm, hp⟩
      · have hdc : d = cur := by simpa using h
        rw [hdc] at ha
        obtain ⟨d', hm, hp⟩ := hanc a ha
        exact ⟨d', List.mem_append_left _ hm, hp⟩
    have hassoc : (done ++ [cur]) ++ rest = done ++ cur :: rest := by
      rw [List.append_assoc, List.singleton_append]
    have hres := ih (done ++ [cur]) (walkStep pats dest st cur)
      (fun d hd => hclean d (hassoc ▸ hd)) hac.2 hancDone2 hstep
    exact hassoc ▸ hres

theorem mount_inv (pats : List Path) (dest : Path) (es : List WalkEntry)
    (hpats : ∀ f ∈ pats, noMeta f = true)
    (hclean : ∀ d ∈ es, trimLeadSlash d.name = d.name)
    (hac : ancClosedB [] es = true) :
    WalkInv pats dest (mountWalk pats dest es) es := by
  have h := walkFrom_inv pats dest hpats es [] ⟨[], []⟩
    (by simpa using hclean) hac
    (fun d hd => absurd hd (List.not_mem_nil d))
    ⟨fun n hn => by simp [contentAtF, alGet] at hn,
     fun D hD => absurd hD (List.not_mem_nil D),
     fun D hD => absurd hD (List.not_mem_nil D),
     fun d hd => absurd hd (List.not_mem_nil d),
     fun d hd => absurd hd (List.not_mem_nil d)⟩
  simpa using h

/-- C8 (amended): after the mount walk, provided every pattern is free of
glob metacharacters, entry names carry no leading slash, and every
entry's ancestor directories are walked before it as directory entries,
every ancestor directory path of every content entry recorded in the
cache is itself present in the cache map (as a content entry or an
ancestor entry).  Entry names may repeat across the walk, as they do
across the layers of one image. -/
theorem mount_ancestors_present (pats : List Path) (dest : Path)
    (es : List WalkEntry)
    (hpats : ∀ f ∈ pats, noMeta f = true)
    (hclean : ∀ d ∈ es, trimLeadSlash d.name = d.name)
    (hac : ancClosedB [] es = true) :
    ∀ n, contentAtF (mountWalk pats dest es).files (joinP dest n) = true →
      ∀ a, isAncestorName a n = true →
        (alGet (mountWalk pats dest es).files (joinP dest a)).isSome :=
  (mount_inv pats dest es hpats hclean hac).1

theorem mount_ancestors_present_witness :
    (∀ f ∈ [['a', '/', 'b']], noMeta f = true) ∧
    (alGet (mountWalk [['a', '/', 'b']] ['/', 'r']
        [⟨['a'], ⟨[100], 0, 0, FileKind.dir, []⟩, []⟩,
         ⟨['a', '/', 'b'], ⟨[45], 0, 0, FileKind.regular, []⟩, [7]⟩,
         ⟨['a'], ⟨[100], 0, 0, FileKind.dir, []⟩, []⟩]).files
      (joinP ['/', 'r'] ['a'])).isSome :=
  ⟨by decide,
   mount_ancestors_present [['a', '/', 'b']] ['/', 'r']
    [⟨['a'], ⟨[100], 0, 0, FileKind.dir, []⟩, []⟩,
     ⟨['a', '/', 'b'], ⟨[45], 0, 0, FileKind.regular, []⟩, [7]⟩,
     ⟨['a'], ⟨[100], 0, 0, FileKind.dir, []⟩, []⟩]
    (by decide) (by decide) (by decide)
    ['a', '/', 'b'] (by decide) ['a'] (by decide)⟩

/-- C8 counterexamples to the unconditional claim, one per amended
hypothesis.  Walk order: with the metacharacter-free pattern `d` and walk
order `d/x` (directory), `d` (directory), `d/x/y` (file), the file
`d/x/y` is swept in by the cached directory `d` while its ancestor `d/x`
— processed before `d` was cached — is never keyed.  Patterns: with the
glob pattern `*/y` and the ancestor-closed walk `x` (directory), `x/y`
(file), the file `x/y` is cached by a glob hit while its ancestor `x`
neither matches the pattern, nor is a path prefix of it, nor lies under a
cached directory, so it is never keyed. -/
theorem mount_ancestors_counterexample :
    (contentAtF (mountWalk [['d']] ['/', 'r']
        [⟨['d', '/', 'x'], ⟨[100], 0, 0, FileKind.dir, []⟩, []⟩,
         ⟨['d'], ⟨[100], 0, 0, FileKind.dir, []⟩, []⟩,
         ⟨['d', '/', 'x', '/', 'y'], ⟨[45], 0, 0, FileKind.regular, []⟩, [7]⟩]).files
      (joinP ['/', 'r'] ['d', '/', 'x', '/', 'y']) = true ∧
     isAncestorName ['d', '/', 'x'] ['d', '/', 'x', '/', 'y'] = true ∧
     alGet (mountWalk [['d']] ['/', 'r']
        [⟨['d', '/', 'x'], ⟨[100], 0, 0, FileKind.dir, []⟩, []⟩,
         ⟨['d'], ⟨[100], 0, 0, FileKind.dir, []⟩, []⟩,
         ⟨['d', '/', 'x', '/', 'y'], ⟨[45], 0, 0, FileKind.regular, []⟩, [7]⟩]).files
      (joinP ['/', 'r'] ['d', '/', 'x']) = none ∧
     noMeta ['d'] = true) ∧
    (contentAtF (mountWalk [['*', '/', 'y']] ['/', 'r']
        [⟨['x'], ⟨[100], 0, 0, FileKind.dir, []⟩, []⟩,
         ⟨['x', '/', 'y'], ⟨[45], 0, 0, FileKind.regular, []⟩, [7]⟩]).files
      (joinP ['/', 'r'] ['x', '/', 'y']) = true ∧
     isAncestorName ['x'] ['x', '/', 'y'] = true ∧
     alGet (mountWalk [['*', '/', 'y']] ['/', 'r']
        [⟨['x'], ⟨[100], 0, 0, FileKind.dir, []⟩, []⟩,
         ⟨['x', '/', 'y'], ⟨[45], 0, 0, FileKind.regular, []⟩, [7]⟩]).files
      (joinP ['/', 'r'] ['x']) = none ∧
     ancClosedB []
        [⟨['x'], ⟨[100], 0, 0, FileKind.dir, []⟩, []⟩,
         ⟨['x', '/', 'y'], ⟨[45], 0, 0, FileKind.regular, []⟩, [7]⟩] = true) := by
  decide

end Kaniko
